import Mathlib

/-!
Verification of the twprs profile store, deactivation log and rescrape
scheduler against their specification.

Conventions of the embedding:
* Timestamps (chrono DateTime at second precision, as produced by
  Utc.timestamp(s, 0) and consumed by .timestamp()) are modelled as Int.
* u64 / u32 machine integers are modelled as Nat; where wrap-around is
  reachable the operation carries an explicit reduction mod 2 ^ 32 / 2 ^ 64.
* HashMap<K, V> is modelled as an association list List (K × V) whose keys
  are unique; operations act on the first occurrence of a key, and map
  equality is extensional equality of lookups (Log.Equiv below), which for
  unique-key lists coincides with Rust's HashMap PartialEq.
* A line of the deactivation file is modelled as its list of
  comma-separated fields (the value of line.split on the comma character),
  so the field-splitting of Log::read is applied and a line with k commas
  has k + 1 fields, the trailing one possibly empty.
-/

/-! ### Association list helpers (model of HashMap access paths) -/

def alFind {α β : Type} [DecidableEq α] (k : α) : List (α × β) → Option β
  | [] => none
  | (k', v) :: t => if k' = k then some v else alFind k t

def alStore {α β : Type} [DecidableEq α] (k : α) (v : β) : List (α × β) → List (α × β)
  | [] => [(k, v)]
  | (k', v') :: t => if k' = k then (k', v) :: t else (k', v') :: alStore k v t

def alModify {α β : Type} [DecidableEq α] (k : α) (f : β → β) : List (α × β) → List (α × β)
  | [] => []
  | (k', v') :: t => if k' = k then (k', f v') :: t else (k', v') :: alModify k f t

def alKeys {α β : Type} (m : List (α × β)) : List α := m.map Prod.fst

/-! ### Deactivation log data model (src/db/src/deactivation.rs) -/

/-- Modelled from the spec: the FormerUserStatus enum of the external
egg-mode-extras client crate (not under src/). Per the deactivation file
format of the spec, status codes are the upstream integer codes, with 63
mapping to Suspended and 50 to NotFound, and unknown codes rejected. -/
inductive FormerUserStatus : Type
  | notFound : FormerUserStatus
  | suspended : FormerUserStatus
deriving DecidableEq, Repr

/-- Modelled from the spec: the integer code of a status, as written by
Log::write (63 for suspended, 50 for not-found). -/
def FormerUserStatus.code : FormerUserStatus → Nat
  | .notFound => 50
  | .suspended => 63

/-- Modelled from the spec: FormerUserStatus::try_from on an integer code,
succeeding exactly on the known codes. -/
def FormerUserStatus.tryFrom (code : Int) : Option FormerUserStatus :=
  if code = 50 then some .notFound
  else if code = 63 then some .suspended
  else none

structure Entry : Type where
  status : FormerUserStatus
  observed : Int
  reversal : Option Int
deriving DecidableEq, Repr

structure Log : Type where
  entries : List (Nat × List Entry)
deriving DecidableEq, Repr

/-- Extensional equality of logs: the counterpart of HashMap equality for
unique-key association lists. -/
def Log.Equiv (l1 l2 : Log) : Prop :=
  ∀ u : Nat, alFind u l1.entries = alFind u l2.entries

inductive LogError : Type
  | invalidUserId : Option String → LogError
  | invalidTwitterErrorCode : Option String → LogError
  | invalidTimestamp : Option String → LogError
deriving DecidableEq, Repr

/-- Log::validate inner pair check: entries.windows(2).all of the match on
pair[0].reversal. -/
def Log.pairsOK : List Entry → Bool
  | a :: b :: t =>
    (match a.reversal with
     | some reversal => decide (a.observed < reversal) && decide (a.observed < b.observed)
     | none => false) && Log.pairsOK (b :: t)
  | _ => true

/-- Log::validate final-entry check: whether the reversal (if there is one)
of the last entry happened after the observation. -/
def Log.lastOK (entries : List Entry) : Bool :=
  match entries.getLast? with
  | some entry =>
    match entry.reversal with
    | some reversal => decide (entry.observed < reversal)
    | none => true
  | none => true

def Log.validateEntries (entries : List Entry) : Bool :=
  Log.pairsOK entries && Log.lastOK entries

def Log.validate (l : Log) : Except (List Nat) Unit :=
  let invalidUserIds :=
    (l.entries.filter
      (fun p => !(!p.2.isEmpty && Log.validateEntries p.2))).map Prod.fst
  if invalidUserIds.isEmpty then Except.ok () else Except.error invalidUserIds

/-! ### Decimal printing and parsing (Rust Display / str::parse) -/

/-- Decimal digits of n, most significant first, by repeated division; the
first argument is fuel (n itself suffices since n / 10 < n). -/
def natReprAux : Nat → Nat → List Char
  | 0, _ => []
  | fuel + 1, n =>
    if n = 0 then [] else natReprAux fuel (n / 10) ++ [Nat.digitChar (n % 10)]

/-- Decimal rendering of a Nat, as Rust Display for unsigned integers. -/
def natRepr (n : Nat) : List Char :=
  if n = 0 then ['0'] else natReprAux n n

/-- Decimal rendering of an Int, as Rust Display for signed integers. -/
def intRepr (i : Int) : List Char :=
  if i < 0 then '-' :: natRepr (-i).toNat else natRepr i.toNat

def natReprS (n : Nat) : String := String.mk (natRepr n)

def intReprS (i : Int) : String := String.mk (intRepr i)

def digitVal (c : Char) : Nat := c.toNat - 48

/-- Value of a nonempty list of decimal digit characters, or none. -/
def parseDigits (cs : List Char) : Option Nat :=
  match cs with
  | [] => none
  | _ =>
    if cs.all Char.isDigit then some (cs.foldl (fun a c => a * 10 + digitVal c) 0)
    else none

/-- Rust unsigned integer parsing accepts one optional leading plus sign. -/
def stripPlus : List Char → List Char
  | [] => []
  | c :: t => if c = '+' then t else c :: t

/-- Model of str::parse::<u64>: optional plus sign, decimal digits, range
check. -/
def parseU64 (s : String) : Option Nat :=
  (parseDigits (stripPlus s.data)).bind
    (fun n => if n < 2 ^ 64 then some n else none)

/-- Model of str::parse for a signed integer type with the given bound
(2 ^ 63 for i64, 2 ^ 31 for i32): optional sign, digits, range check. -/
def parseIntB (bound : Nat) (s : String) : Option Int :=
  if s.data.head? = some '-' then
    (parseDigits s.data.tail).bind
      (fun n => if n ≤ bound then some (-(n : Int)) else none)
  else
    (parseDigits (stripPlus s.data)).bind
      (fun n => if n < bound then some (n : Int) else none)

def parseI64 (s : String) : Option Int := parseIntB (2 ^ 63) s

def parseI32 (s : String) : Option Int := parseIntB (2 ^ 31) s

/-! ### Log::read and Log::write (src/db/src/deactivation.rs, lines modelled
as their comma-separated field lists) -/

/-- The push into entries.entry(user_id).or_default() for one parsed line. -/
def Log.pushEntry (m : List (Nat × List Entry)) (u : Nat) (e : Entry) :
    List (Nat × List Entry) :=
  match alFind u m with
  | some es => alStore u (es ++ [e]) m
  | none => m ++ [(u, [e])]

/-- One iteration of the line loop of Log::read, on the fields of the line. -/
def Log.readLine (m : List (Nat × List Entry)) (fields : List String) :
    Except LogError (List (Nat × List Entry)) := do
  let userId ←
    match (fields.get? 0).bind parseU64 with
    | some v => Except.ok v
    | none => Except.error (LogError.invalidUserId (fields.get? 0))
  let status ←
    match (fields.get? 1).bind (fun f => (parseI32 f).bind FormerUserStatus.tryFrom) with
    | some v => Except.ok v
    | none => Except.error (LogError.invalidTwitterErrorCode (fields.get? 1))
  let observed ←
    match (fields.get? 2).bind parseI64 with
    | some v => Except.ok v
    | none => Except.error (LogError.invalidTimestamp (fields.get? 2))
  let reversal ←
    match (fields.get? 3).bind
        (fun v => if v = "" then some none else (parseI64 v).map some) with
    | some v => Except.ok v
    | none => Except.error (LogError.invalidTimestamp (fields.get? 3))
  Except.ok (Log.pushEntry m userId { status, observed, reversal })

def Log.readGo (m : List (Nat × List Entry)) :
    List (List String) → Except LogError (List (Nat × List Entry))
  | [] => Except.ok m
  | fields :: rest => (Log.readLine m fields).bind (fun m' => Log.readGo m' rest)

/-- Log::read over the field lists of the input lines. -/
def Log.read (lines : List (List String)) : Except LogError Log :=
  (Log.readGo [] lines).map Log.mk

/-- The four written fields of one entry, as in the writeln of Log::write. -/
def Log.entryFields (u : Nat) (e : Entry) : List String :=
  [natReprS u, natReprS e.status.code, intReprS e.observed,
   (e.reversal.map intReprS).getD ""]

/-- Log::write: entries sorted ascending by user id, each user's entries in
stored order, one line (field list) per entry. -/
def Log.write (l : Log) : List (List String) :=
  ((l.entries.insertionSort (fun a b => a.1 ≤ b.1)).map
    (fun p => p.2.map (Log.entryFields p.1))).flatten

/-! ### Log::update (src/db/src/deactivation.rs, lines 93-123) -/

/-- Setting the reversal on the last element of a list in place, as through
entries.last_mut(). -/
def setLastReversal (t : Int) : List Entry → List Entry
  | [] => []
  | [e] => [{ e with reversal := some t }]
  | e :: rest => e :: setLastReversal t rest

/-- The loop of Log::update: each (user id, timestamp) pair either closes the
user's last entry (when it exists and is open) or is pushed onto the invalid
list; acc carries the invalid pairs collected so far, in order. -/
def Log.updateGo (m : List (Nat × List Entry)) (acc : List (Nat × Int)) :
    List (Nat × Int) → List (Nat × List Entry) × List (Nat × Int)
  | [] => (m, acc)
  | p :: ps =>
    match (alFind p.1 m).bind List.getLast? with
    | some last =>
      if last.reversal = none then
        Log.updateGo (alModify p.1 (setLastReversal p.2) m) acc ps
      else Log.updateGo m (acc ++ [p]) ps
    | none => Log.updateGo m (acc ++ [p]) ps

/-- Log::update: the mutated log together with its Result value. -/
def Log.update (l : Log) (reversals : List (Nat × Int)) :
    Log × Except (List (Nat × Int)) Unit :=
  let r := Log.updateGo l.entries [] reversals
  (Log.mk r.1, if r.2.isEmpty then Except.ok () else Except.error r.2)

/-- Side definition following the claim's words for C9: one pair sets the
reversal on the user's most recent entry if and only if that entry exists
and is open; the Bool reports whether the pair was valid. -/
def specUpdateStep (m : List (Nat × List Entry)) (p : Nat × Int) :
    List (Nat × List Entry) × Bool :=
  match alFind p.1 m with
  | some es =>
    match es.getLast? with
    | some last =>
      if last.reversal = none then
        (alStore p.1 (es.dropLast ++ [{ last with reversal := some p.2 }]) m, true)
      else (m, false)
    | none => (m, false)
  | none => (m, false)

/-- Side definition following the claim's words for C9: all pairs processed
left to right, invalid ones collected in order. -/
def specUpdateRun : List (Nat × List Entry) → List (Nat × Int) →
    List (Nat × List Entry) × List (Nat × Int)
  | m, [] => (m, [])
  | m, p :: ps =>
    let r := specUpdateStep m p
    let rest := specUpdateRun r.1 ps
    (rest.1, (if r.2 then [] else [p]) ++ rest.2)

/-! ### Log merge: impl Add for &Log (src/db/src/deactivation.rs, 280-309) -/

def obsLE (a b : Entry) : Prop := a.observed ≤ b.observed

instance : DecidableRel obsLE := fun a b => Int.decLe a.observed b.observed

instance : IsTotal Entry obsLE := ⟨fun a b => Int.le_total a.observed b.observed⟩

instance : IsTrans Entry obsLE := ⟨fun _ _ _ h1 h2 => le_trans h1 h2⟩

/-- The stable sort by observed of the merged entry list (Vec::sort_by_key). -/
def sortObs (es : List Entry) : List Entry := es.insertionSort obsLE

/-- Vec::dedup: removal of consecutive repeated entries, keeping the first. -/
def dedupAdj : List Entry → List Entry
  | [] => []
  | [e] => [e]
  | a :: b :: t => if a = b then dedupAdj (b :: t) else a :: dedupAdj (b :: t)

/-- The final collapsing step of Add: when the last two entries have the same
status and both are open, the later one is popped. -/
def collapseTrailing (es : List Entry) : List Entry :=
  match es.reverse with
  | last2 :: last1 :: _ =>
    if last1.status = last2.status ∧ last1.reversal = none ∧ last2.reversal = none
    then es.dropLast else es
  | _ => es

/-- The per-user processing of Add: concatenate, sort by observed, dedup
adjacent duplicates, collapse a trailing open duplicate-status pair. -/
def addProcess (old new : List Entry) : List Entry :=
  collapseTrailing (dedupAdj (sortObs (old ++ new)))

/-- impl Add for &Log: self's map extended user by user with other's lists. -/
def logAdd (l1 l2 : Log) : Log :=
  Log.mk
    (l2.entries.foldl
      (fun m p => alStore p.1 (addProcess ((alFind p.1 m).getD []) p.2) m)
      l1.entries)

/-- Canonical per-user list for C7: strictly increasing observed times and a
fixed point of the trailing collapse. -/
def EntriesCanonical (es : List Entry) : Prop :=
  es.Pairwise (fun a b => a.observed < b.observed) ∧ collapseTrailing es = es

instance : DecidablePred EntriesCanonical := fun es => by
  unfold EntriesCanonical
  infer_instance

/-! ### IEEE-754 binary32 model (dyadic rationals, round to nearest even)

The scheduler's compute_target works in f32. A finite float is represented
as m * 2 ^ e with m odd or m = 0 (canonical dyadic form), so equality is
structural; rounding is round-to-nearest-even with 24-bit significands,
overflow at 2 ^ 128 and subnormals down to 2 ^ (-149), exactly as binary32.
All arithmetic is on Int / Nat so every operation evaluates in the kernel. -/

inductive F32 : Type
  | fin (m : Int) (e : Int) : F32
  | inf : F32
  | neginf : F32
  | nan : F32
deriving DecidableEq, Repr

/-- Floor of log2 for positive n, by fuelled halving. -/
def natLog2Aux : Nat → Nat → Nat
  | 0, _ => 0
  | fuel + 1, n => if n ≤ 1 then 0 else natLog2Aux fuel (n / 2) + 1

def natLog2 (n : Nat) : Nat := natLog2Aux n n

/-- Whether 2 ^ c ≤ a / d, for d > 0, with c a possibly negative exponent. -/
def gePow2 (a d : Nat) (c : Int) : Bool :=
  if 0 ≤ c then decide (d * 2 ^ c.toNat ≤ a) else decide (d ≤ a * 2 ^ (-c).toNat)

/-- Round num / den (den > 0) to the nearest integer, ties to even. -/
def roundNEInt (num den : Nat) : Nat :=
  let q := num / den
  let r := num % den
  if 2 * r < den then q
  else if den < 2 * r then q + 1
  else if q % 2 = 0 then q else q + 1

/-- Strip factors of two into the exponent to reach the canonical form. -/
def canonAux : Nat → Nat → Int → Nat × Int
  | 0, m, e => (m, e)
  | fuel + 1, m, e =>
    if m ≠ 0 ∧ m % 2 = 0 then canonAux fuel (m / 2) (e + 1) else (m, e)

def mkFin (sgnNeg : Bool) (m : Nat) (e : Int) : F32 :=
  if m = 0 then .fin 0 0
  else
    let c := canonAux m m e
    .fin (if sgnNeg then -(c.1 : Int) else (c.1 : Int)) c.2

/-- Round the rational n / d (d > 0) to the nearest binary32 value. -/
def roundRat (n : Int) (d : Int) : F32 :=
  if d ≤ 0 then .nan
  else if n = 0 then .fin 0 0
  else
    let a := n.natAbs
    let dn := d.toNat
    let c : Int := (natLog2 a : Int) - (natLog2 dn : Int)
    let e : Int := if gePow2 a dn c then c else c - 1
    let scale : Int := max (e - 23) (-149)
    let m :=
      if 0 ≤ scale then roundNEInt a (dn * 2 ^ scale.toNat)
      else roundNEInt (a * 2 ^ (-scale).toNat) dn
    if 2 ^ (128 - scale).toNat ≤ m then (if n < 0 then .neginf else .inf)
    else mkFin (n < 0) m scale

/-- Round the dyadic n * 2 ^ e to the nearest binary32 value. -/
def roundDyadic (n : Int) (e : Int) : F32 :=
  if 0 ≤ e then roundRat (n * 2 ^ e.toNat) 1 else roundRat n (2 ^ (-e).toNat)

/-- Integer-to-f32 conversion (Rust as-cast, round to nearest even). -/
def F32.ofInt (n : Int) : F32 := roundDyadic n 0

def F32.ofNat (n : Nat) : F32 := roundDyadic n 0

def F32.add : F32 → F32 → F32
  | .nan, _ => .nan
  | _, .nan => .nan
  | .inf, .neginf => .nan
  | .neginf, .inf => .nan
  | .inf, _ => .inf
  | _, .inf => .inf
  | .neginf, _ => .neginf
  | _, .neginf => .neginf
  | .fin m1 e1, .fin m2 e2 =>
    let e := min e1 e2
    roundDyadic (m1 * 2 ^ (e1 - e).toNat + m2 * 2 ^ (e2 - e).toNat) e

def F32.mul : F32 → F32 → F32
  | .nan, _ => .nan
  | _, .nan => .nan
  | .inf, .fin m _ => if m = 0 then .nan else if 0 < m then .inf else .neginf
  | .fin m _, .inf => if m = 0 then .nan else if 0 < m then .inf else .neginf
  | .neginf, .fin m _ => if m = 0 then .nan else if 0 < m then .neginf else .inf
  | .fin m _, .neginf => if m = 0 then .nan else if 0 < m then .neginf else .inf
  | .inf, .inf => .inf
  | .inf, .neginf => .neginf
  | .neginf, .inf => .neginf
  | .neginf, .neginf => .inf
  | .fin m1 e1, .fin m2 e2 => roundDyadic (m1 * m2) (e1 + e2)

def F32.div : F32 → F32 → F32
  | .nan, _ => .nan
  | _, .nan => .nan
  | .inf, .inf => .nan
  | .inf, .neginf => .nan
  | .neginf, .inf => .nan
  | .neginf, .neginf => .nan
  | .inf, .fin m _ => if 0 ≤ m then .inf else .neginf
  | .neginf, .fin m _ => if 0 ≤ m then .neginf else .inf
  | .fin _ _, .inf => .fin 0 0
  | .fin _ _, .neginf => .fin 0 0
  | .fin m1 e1, .fin m2 e2 =>
    if m2 = 0 then
      if m1 = 0 then .nan else if 0 < m1 then .inf else .neginf
    else
      let k := e1 - e2
      let num := if 0 ≤ k then m1 * 2 ^ k.toNat else m1
      let den := if 0 ≤ k then m2 else m2 * 2 ^ (-k).toNat
      if 0 < m2 then roundRat num den else roundRat (-num) (-den)

/-- Rust float-to-u32 as-cast: truncate toward zero and saturate into the
u32 range; NaN casts to zero. -/
def F32.toU32 : F32 → Nat
  | .nan => 0
  | .neginf => 0
  | .inf => 2 ^ 32 - 1
  | .fin m e =>
    if m ≤ 0 then 0
    else
      let t : Nat := if 0 ≤ e then m.toNat * 2 ^ e.toNat else m.toNat / 2 ^ (-e).toNat
      min t (2 ^ 32 - 1)

/-! ### Rescrape scheduler (src/scraper/src/queue.rs)

The queue of the priority-queue crate is modelled as an association list
from user id to target seconds; the stored priority is Reverse(target), so
a higher priority means a smaller target. The concurrency wrappers (RwLock,
join, futures) disappear in the embedding: each operation is the state
transformer it performs under its locks, with the ambient Utc::now() passed
explicitly. Pop order between equal targets is not part of the crate's
contract; popMin takes the leftmost minimum. -/

structure UserQueue : Type where
  underlying : List (Nat × Nat)
  scores : List (Nat × Nat)
  recentlyDeactivated : List (Nat × Int)
  skipDeactivationRecheck : Int
deriving DecidableEq, Repr

def defaultSkipDeactivationRecheckSeconds : Int := 2 * 60 * 60

/-- UserQueue::compute_target: (now.timestamp() as f32 +
(MAX_TARGET_DAYS / score as f32) * 24.0 * 60.0 * 60.0) as u32, with
MAX_TARGET_DAYS = 10.0. -/
def computeTarget (now : Int) (score : Nat) : Nat :=
  let base := F32.ofInt now
  let days := F32.div (F32.ofInt 10) (F32.ofNat score)
  F32.toU32
    (F32.add base
      (F32.mul (F32.mul (F32.mul days (F32.ofInt 24)) (F32.ofInt 60)) (F32.ofInt 60)))

/-- PriorityQueue::push: unconditional insert or replacement. -/
def pushTarget (q : List (Nat × Nat)) (id target : Nat) : List (Nat × Nat) :=
  alStore id target q

/-- PriorityQueue::push_increase with priority Reverse(target): raise the
priority of a present element (lower its target) or insert an absent one. -/
def pushIncrease (q : List (Nat × Nat)) (id target : Nat) : List (Nat × Nat) :=
  match alFind id q with
  | some t0 => alStore id (min t0 target) q
  | none => alStore id target q

/-- PriorityQueue::push_decrease with priority Reverse(target): lower the
priority of a present element (raise its target) or insert an absent one. -/
def pushDecrease (q : List (Nat × Nat)) (id target : Nat) : List (Nat × Nat) :=
  match alFind id q with
  | some t0 => alStore id (max t0 target) q
  | none => alStore id target q

/-- UserQueue::new from bootstrap triples (id, score, last_snapshot). -/
def UserQueue.new (values : List (Nat × Nat × Int)) : UserQueue :=
  { underlying :=
      values.foldl (fun q v => pushTarget q v.1 (computeTarget v.2.2 v.2.1)) []
    scores := values.foldl (fun s v => alStore v.1 v.2.1 s) []
    recentlyDeactivated := []
    skipDeactivationRecheck := defaultSkipDeactivationRecheckSeconds }

/-- UserQueue::remove_recently_deactivated: ids.retain of the map_or check
against skip_deactivation_recheck. -/
def UserQueue.removeRecentlyDeactivated (st : UserQueue) (now : Int)
    (ids : List Nat) : List Nat :=
  ids.filter
    (fun id =>
      (alFind id st.recentlyDeactivated).elim true
        (fun d => now - d ≤ st.skipDeactivationRecheck))

/-- UserQueue::decrement_scores: entry or_default, then saturating -1. -/
def decrementScores (s : List (Nat × Nat)) (ids : List Nat) : List (Nat × Nat) :=
  ids.foldl
    (fun s id =>
      let sc := (alFind id s).getD 0
      alStore id (if 0 < sc then sc - 1 else sc) s)
    s

/-- UserQueue::increment_scores: entry or_default, then +1 in u32. -/
def incrementScores (s : List (Nat × Nat)) (ids : List Nat) : List (Nat × Nat) :=
  ids.foldl
    (fun s id => alStore id (((alFind id s).getD 0 + 1) % 2 ^ 32) s)
    s

/-- UserQueue::process_removals: the ids surviving
remove_recently_deactivated are prioritized to Reverse(0); all ids get their
score decremented. The incoming collection is collected into a HashSet. -/
def UserQueue.processRemovals (st : UserQueue) (now : Int) (ids0 : List Nat) :
    UserQueue :=
  let ids := ids0.dedup
  { st with
    underlying :=
      (st.removeRecentlyDeactivated now ids).foldl
        (fun q id => pushIncrease q id 0) st.underlying
    scores := decrementScores st.scores ids }

/-- UserQueue::process_additions: prioritize_new (push_decrease to
Reverse(0)) plus increment_scores, over the deduplicated ids. -/
def UserQueue.processAdditions (st : UserQueue) (ids0 : List Nat) : UserQueue :=
  let ids := ids0.dedup
  { st with
    underlying := ids.foldl (fun q id => pushDecrease q id 0) st.underlying
    scores := incrementScores st.scores ids }

/-- UserQueue::process_updates: push with the target computed from the
stored score, defaulting to 1 when no score is recorded. -/
def UserQueue.processUpdates (st : UserQueue) (now : Int) (ids : List Nat) :
    UserQueue :=
  { st with
    underlying :=
      ids.foldl
        (fun q id => pushTarget q id (computeTarget now ((alFind id st.scores).getD 1)))
        st.underlying }

/-- UserQueue::process_deactivations: record now for each id. -/
def UserQueue.processDeactivations (st : UserQueue) (now : Int)
    (ids : List Nat) : UserQueue :=
  { st with
    recentlyDeactivated :=
      ids.foldl (fun m id => alStore id now m) st.recentlyDeactivated }

/-- One pop of the queue: the entry with the highest priority, i.e. the
smallest target (leftmost among ties, which the crate leaves unspecified). -/
def popMin : List (Nat × Nat) → Option (Nat × List (Nat × Nat))
  | [] => none
  | x :: rest =>
    let best := rest.foldl (fun b y => if y.2 < b.2 then y else b) x
    some (best.1, (x :: rest).erase best)

def nextBatchGo : Nat → List (Nat × Nat) → List Nat × List (Nat × Nat)
  | 0, q => ([], q)
  | n + 1, q =>
    match popMin q with
    | none => ([], q)
    | some (id, q') =>
      let r := nextBatchGo n q'
      (id :: r.1, r.2)

/-- UserQueue::next_batch: up to count pops. -/
def UserQueue.nextBatch (st : UserQueue) (count : Nat) : List Nat :=
  (nextBatchGo count st.underlying).1

/-! ### Profile store (src/db/src/db.rs)

The Avro payload codec round-trips the profile record, so a stored value is
modelled as the pair of its 8-byte big-endian timestamp and its decoded
payload; the claims under verification all condition on values that decode
successfully, which this representation builds in. Keys are the pair of the
u64 id bits and the lowercased screen-name characters: UTF-8 byte order
coincides with code-point order, so the pair ordering matches the byte
ordering of the concatenated key, and a prefix scan for an id is the
filtering of the keys with that first component. -/

/-- Modelled from the spec: the profile record of the twprs model crate
(not under src/), restricted to the fields the claims touch; the remaining
required fields of the record schema behave like followersCount here. -/
structure User : Type where
  id : Int
  screenName : String
  snapshot : Int
  followersCount : Nat
  friendsCount : Nat
  verified : Bool
deriving DecidableEq, Repr

/-- Reinterpretation of an i64 as the u64 with the same bits, as performed
by writing to_be_bytes of the id and reading the key bytes back as u64. -/
def u64OfI64 (x : Int) : Nat := (x % (2 ^ 64 : Int)).toNat

/-- Rust str::to_lowercase; Twitter screen names are ASCII, where this is
exact. -/
def lowerChars (s : String) : List Char := s.data.map Char.toLower

def PKey : Type := Nat × List Char
deriving instance DecidableEq for PKey

/-- ProfileDb::make_key: id bits, then the lowercased screen name. -/
def makeKey (u : User) : PKey := (u64OfI64 u.id, lowerChars u.screenName)

def PVal : Type := Int × User
deriving instance DecidableEq for PVal

/-- The merge operator of src/db/src/db.rs (fn merge): the earliest
first-observed timestamp and the payload with the strictly-largest snapshot
are tracked separately over the existing value and the operands. -/
def mergeStep (acc : Option Int × Option User) (v : PVal) :
    Option Int × Option User :=
  (match acc.1 with
   | some prev => if v.1 < prev then some v.1 else some prev
   | none => some v.1,
   match acc.2 with
   | some prev => if v.2.snapshot > prev.snapshot then some v.2 else some prev
   | none => some v.2)

def merge (existing : Option PVal) (operands : List PVal) : Option PVal :=
  let r := operands.foldl mergeStep (existing.map Prod.fst, existing.map Prod.snd)
  match r.1, r.2 with
  | some t, some u => some (t, u)
  | _, _ => existing

def ProfileDb : Type := List (PKey × PVal)
deriving instance DecidableEq for ProfileDb

/-- ProfileDb::update: a merge write of (be64(snapshot), payload) under
make_key, linearized through the engine's merge pipeline: the stored cell
becomes the full merge of the previous cell with the single operand. -/
def dbUpdate (db : ProfileDb) (u : User) : ProfileDb :=
  let k := makeKey u
  match merge (alFind k db) [(u.snapshot, u)] with
  | some v => alStore k v db
  | none => db

def dbOfUpdates (us : List User) : ProfileDb := us.foldl dbUpdate []

def snapLE (a b : PVal) : Prop := a.2.snapshot ≤ b.2.snapshot

instance : DecidableRel snapLE := fun a b => Int.decLe a.2.snapshot b.2.snapshot

instance : IsTotal PVal snapLE := ⟨fun a b => Int.le_total a.2.snapshot b.2.snapshot⟩

instance : IsTrans PVal snapLE := ⟨fun _ _ _ h1 h2 => le_trans h1 h2⟩

/-- ProfileDb::lookup: the records whose key starts with the id bits,
decoded and then sorted (stably) by payload snapshot. -/
def dbLookup (userId : Nat) (db : ProfileDb) : List PVal :=
  ((db.filter (fun kv => kv.1.1 = userId)).map Prod.snd).insertionSort snapLE

/-- Side definition following the claim's words for C1: the minimum
first-observed over the inputs. -/
def minFirstObserved (x : PVal) (rest : List PVal) : Int :=
  (rest.map Prod.fst).foldl min x.1

/-- Side definition following the claim's words for C1: the maximum snapshot
over the inputs. -/
def maxSnapshot (x : PVal) (rest : List PVal) : Int :=
  (rest.map (fun v => v.2.snapshot)).foldl max x.2.snapshot

/-- Side definition following the claim's words for C1: the reducer output
is the minimum first-observed paired with the payload of the leftmost input
attaining the maximum snapshot. -/
def specMergeOut (x : PVal) (rest : List PVal) : Option PVal :=
  ((x :: rest).find? (fun v => v.2.snapshot = maxSnapshot x rest)).map
    (fun v => (minFirstObserved x rest, v.2))

/-! ### Side definitions following the claims' words -/

/-- Side definition following the claim's words for C4: a user's entries are
valid when non-empty and every consecutive pair has the earlier entry's
reversal present with observed < reversal < next observed. -/
def claimValidEntries (es : List Entry) : Prop :=
  es ≠ [] ∧
    ∀ p ∈ es.zip es.tail,
      ∃ r, p.1.reversal = some r ∧ p.1.observed < r ∧ r < p.2.observed

/-- What Log::validate actually checks per user (C4 amended): every
consecutive pair has the earlier reversal present, after its own
observation, and observations increasing; and a final reversal, when
present, follows its observation. -/
def codeValidEntries (es : List Entry) : Prop :=
  (∀ p ∈ es.zip es.tail,
    ∃ r, p.1.reversal = some r ∧ p.1.observed < r ∧ p.1.observed < p.2.observed) ∧
  (∀ e, es.getLast? = some e → ∀ r, e.reversal = some r → e.observed < r)

/-- The i64 range of a chrono second timestamp as written and re-parsed. -/
def tsRange (t : Int) : Prop := -(2 ^ 63) ≤ t ∧ t < 2 ^ 63

/-- All timestamps of an entry lie in the i64 range. -/
def entryTsRange (e : Entry) : Prop :=
  tsRange e.observed ∧ ∀ r ∈ e.reversal.toList, tsRange r

instance : DecidablePred tsRange := fun t => by
  unfold tsRange
  infer_instance

instance : DecidablePred entryTsRange := fun e => by
  unfold entryTsRange
  infer_instance

/-- The entry pushes of Log::read for the consecutive lines of one user. -/
def Log.pushEntries (m : List (Nat × List Entry)) (u : Nat) (es : List Entry) :
    List (Nat × List Entry) :=
  es.foldl (fun m e => Log.pushEntry m u e) m

/-- No observation time is shared by a common user of the two logs (the
tie-freedom condition of C7 amended). -/
def LogCrossDistinct (l1 l2 : Log) : Prop :=
  ∀ u xs ys, alFind u l1.entries = some xs → alFind u l2.entries = some ys →
    ∀ a ∈ xs, ∀ b ∈ ys, a.observed ≠ b.observed

def obsLT (a b : Entry) : Prop := a.observed < b.observed

instance : DecidableRel obsLT := fun a b => Int.decLt a.observed b.observed

instance : IsAntisymm Entry obsLT :=
  ⟨fun _ _ h1 h2 => absurd (lt_trans h1 h2) (lt_irrefl _)⟩

/-! ## Lemmas and theorems -/

/-! ### Association list basics -/

theorem alFind_alStore_self {α β : Type} [DecidableEq α] (k : α) (v : β) :
    ∀ m : List (α × β), alFind k (alStore k v m) = some v := by
  intro m
  induction m with
  | nil => simp [alFind, alStore]
  | cons h t ih =>
    obtain ⟨k', v'⟩ := h
    by_cases hk : k' = k
    · subst hk
      simp [alFind, alStore]
    · simp [alFind, alStore, hk, ih]

theorem alFind_alStore_ne {α β : Type} [DecidableEq α] {k k' : α} (v : β)
    (h : k' ≠ k) : ∀ m : List (α × β), alFind k' (alStore k v m) = alFind k' m := by
  intro m
  induction m with
  | nil => simp [alFind, alStore, Ne.symm h]
  | cons hd t ih =>
    obtain ⟨k0, v0⟩ := hd
    by_cases hk : k0 = k
    · subst hk
      have : ¬ k0 = k' := fun hh => h hh.symm
      simp [alFind, alStore, this]
    · simp only [alStore, if_neg hk]
      by_cases hk' : k0 = k'
      · subst hk'
        simp [alFind]
      · simp [alFind, hk', ih]

theorem alFind_eq_none_of_not_mem {α β : Type} [DecidableEq α] {k : α} :
    ∀ {m : List (α × β)}, k ∉ alKeys m → alFind k m = none := by
  intro m
  induction m with
  | nil => intro; rfl
  | cons hd t ih =>
    intro h
    obtain ⟨k0, v0⟩ := hd
    simp only [alKeys, List.map_cons, List.mem_cons] at h
    push_neg at h
    have : ¬ k0 = k := fun hh => h.1 (hh ▸ rfl)
    simp [alFind, this]
    exact ih (by simpa [alKeys] using h.2)

theorem alFind_eq_none_iff {α β : Type} [DecidableEq α] {k : α} :
    ∀ {m : List (α × β)}, alFind k m = none ↔ k ∉ alKeys m := by
  intro m
  induction m with
  | nil => simp [alFind, alKeys]
  | cons hd t ih =>
    obtain ⟨k0, v0⟩ := hd
    by_cases hk : k0 = k
    · subst hk
      simp [alFind, alKeys]
    · have hne : k ≠ k0 := fun hh => hk hh.symm
      simp only [alKeys] at ih
      simp only [alFind, if_neg hk, alKeys, List.map_cons, List.mem_cons, hne,
        false_or]
      exact ih

theorem alFind_some_of_mem_nodup {α β : Type} [DecidableEq α] {k : α} {v : β} :
    ∀ {m : List (α × β)}, (alKeys m).Nodup → (k, v) ∈ m → alFind k m = some v := by
  intro m
  induction m with
  | nil => intro _ h; cases h
  | cons hd t ih =>
    intro hnd hm
    obtain ⟨k0, v0⟩ := hd
    simp only [alKeys, List.map_cons, List.nodup_cons] at hnd
    rcases List.mem_cons.mp hm with h | h
    · cases h
      simp [alFind]
    · have hk0 : k0 ≠ k := by
        intro he
        exact hnd.1 (he ▸ (List.mem_map.mpr ⟨(k, v), h, rfl⟩))
      simp [alFind, hk0]
      exact ih hnd.2 h

theorem mem_of_alFind_some {α β : Type} [DecidableEq α] {k : α} {v : β} :
    ∀ {m : List (α × β)}, alFind k m = some v → (k, v) ∈ m := by
  intro m
  induction m with
  | nil => intro h; cases h
  | cons hd t ih =>
    intro hf
    obtain ⟨k0, v0⟩ := hd
    by_cases hk : k0 = k
    · subst hk
      simp only [alFind, if_pos rfl] at hf
      cases hf
      exact List.mem_cons_self _ _
    · simp only [alFind, if_neg hk] at hf
      exact List.mem_cons_of_mem _ (ih hf)

theorem alFind_perm {α β : Type} [DecidableEq α] {m1 m2 : List (α × β)}
    (hp : m1.Perm m2) (hnd : (alKeys m1).Nodup) (k : α) :
    alFind k m1 = alFind k m2 := by
  have hnd2 : (alKeys m2).Nodup := (hp.map Prod.fst).nodup_iff.mp hnd
  cases hf : alFind k m1 with
  | some v =>
    exact (alFind_some_of_mem_nodup hnd2 (hp.mem_iff.mp (mem_of_alFind_some hf))).symm
  | none =>
    have hk2 : k ∉ alKeys m2 := fun hmem =>
      (alFind_eq_none_iff.mp hf) ((hp.map Prod.fst).mem_iff.mpr hmem)
    rw [alFind_eq_none_iff.mpr hk2]

theorem alKeys_alStore {α β : Type} [DecidableEq α] (k : α) (v : β) :
    ∀ m : List (α × β),
      alKeys (alStore k v m) = if k ∈ alKeys m then alKeys m else alKeys m ++ [k] := by
  intro m
  induction m with
  | nil => simp [alKeys, alStore]
  | cons hd t ih =>
    obtain ⟨k0, v0⟩ := hd
    by_cases hk : k0 = k
    · subst hk
      simp [alStore, alKeys]
    · have hne : ¬ k = k0 := fun hh => hk hh.symm
      simp only [alStore, if_neg hk, alKeys, List.map_cons] at ih ⊢
      simp only [List.mem_cons, hne, false_or]
      by_cases hm : k ∈ List.map Prod.fst t
      · simp only [hm, if_true] at ih ⊢
        rw [ih]
      · simp only [hm, if_false] at ih ⊢
        rw [ih]
        simp

/-! ### C10: the fourth field must be syntactically present -/

/-- C10: although the reversal is optional, Log::read requires the fourth
comma-separated field to exist: the three-field line 100,63,1000 is rejected
with an invalid-timestamp error carrying no field value, while
100,63,1000, (trailing comma, empty fourth field) parses to an entry with no
reversal. -/
theorem c10_reversal_field_required :
    Log.read [["100", "63", "1000"]] =
      Except.error (LogError.invalidTimestamp none) ∧
    Log.read [["100", "63", "1000", ""]] =
      Except.ok (Log.mk [(100, [⟨FormerUserStatus.suspended, 1000, none⟩])]) := by
  constructor
  · rfl
  · rfl

/-! ### C2: process_removals versus recently_deactivated (code bug) -/

/-- C2: the code contradicts the claim (and the intent recorded in the
names remove_recently_deactivated and skip_deactivation_recheck): the
retain predicate keeps an id whose recorded deactivation is within
skip_deactivation_recheck of now, so such an id IS promoted to Reverse(0)
(first conjunct, now - deactivation = 3600 ≤ 7200), while an id whose
recorded deactivation is older than the window is dropped and NOT promoted
(third conjunct, now - deactivation = 99999 > 7200); scores are decremented
in both cases (second and fourth conjuncts). -/
theorem c2_code_behavior :
    (UserQueue.processRemovals ⟨[(5, 1000)], [(5, 2)], [(5, 0)], 7200⟩ 3600
        [5]).underlying = [(5, 0)] ∧
    (UserQueue.processRemovals ⟨[(5, 1000)], [(5, 2)], [(5, 0)], 7200⟩ 3600
        [5]).scores = [(5, 1)] ∧
    (UserQueue.processRemovals ⟨[(5, 1000)], [(5, 2)], [(5, 0)], 7200⟩ 99999
        [5]).underlying = [(5, 1000)] ∧
    (UserQueue.processRemovals ⟨[(5, 1000)], [(5, 2)], [(5, 0)], 7200⟩ 99999
        [5]).scores = [(5, 1)] := by
  refine ⟨?_, ?_, ?_, ?_⟩ <;> decide

/-! ### C3: process_additions -/

theorem alFind_foldl_congr {β : Type} (f : List (Nat × β) → Nat → List (Nat × β))
    (H : ∀ q a k, k ≠ a → alFind k (f q a) = alFind k q) :
    ∀ (ids : List Nat) (q : List (Nat × β)) (k : Nat), k ∉ ids →
      alFind k (ids.foldl f q) = alFind k q := by
  intro ids
  induction ids with
  | nil => intro q k _; rfl
  | cons a t ih =>
    intro q k hk
    simp only [List.mem_cons, not_or] at hk
    rw [List.foldl_cons, ih _ _ hk.2, H _ _ _ hk.1]

theorem pushDecrease_find_ne (q : List (Nat × Nat)) (a k t : Nat) (h : k ≠ a) :
    alFind k (pushDecrease q a t) = alFind k q := by
  unfold pushDecrease
  cases alFind a q with
  | some t0 => exact alFind_alStore_ne _ h q
  | none => exact alFind_alStore_ne _ h q

theorem pushDecreaseZero_fold_find :
    ∀ (ids : List Nat) (q : List (Nat × Nat)) (id : Nat), id ∈ ids →
      alFind id (ids.foldl (fun q i => pushDecrease q i 0) q) =
        some ((alFind id q).getD 0) := by
  intro ids
  induction ids with
  | nil => intro q id h; cases h
  | cons a t ih =>
    intro q id hmem
    rw [List.foldl_cons]
    by_cases ha : id = a
    · subst ha
      have hstep : alFind id (pushDecrease q id 0) = some ((alFind id q).getD 0) := by
        unfold pushDecrease
        cases hf : alFind id q with
        | some t0 => simp [alFind_alStore_self]
        | none => simp [alFind_alStore_self]
      by_cases hmt : id ∈ t
      · rw [ih _ _ hmt, hstep]
        simp
      · rw [alFind_foldl_congr _ (fun q a k h => pushDecrease_find_ne q a k 0 h) _ _ _ hmt,
          hstep]
    · have hmt : id ∈ t := by
        rcases List.mem_cons.mp hmem with h | h
        · exact absurd h ha
        · exact h
      rw [ih (pushDecrease q a 0) id hmt, pushDecrease_find_ne q a id 0 ha]

theorem incrementScores_find_ne (s : List (Nat × Nat)) (a k : Nat) (h : k ≠ a) :
    alFind k (alStore a (((alFind a s).getD 0 + 1) % 2 ^ 32) s) = alFind k s :=
  alFind_alStore_ne _ h s

theorem incrementScores_find :
    ∀ (ids : List Nat) (s : List (Nat × Nat)) (id : Nat), ids.Nodup → id ∈ ids →
      alFind id (incrementScores s ids) =
        some (((alFind id s).getD 0 + 1) % 2 ^ 32) := by
  intro ids
  induction ids with
  | nil => intro s id _ h; cases h
  | cons a t ih =>
    intro s id hnd hmem
    have hnd' := List.nodup_cons.mp hnd
    unfold incrementScores
    rw [List.foldl_cons]
    by_cases ha : id = a
    · subst ha
      rw [alFind_foldl_congr _
        (fun q a k h => alFind_alStore_ne _ h q) _ _ _ hnd'.1]
      simp [alFind_alStore_self]
    · have hmt : id ∈ t := by
        rcases List.mem_cons.mp hmem with h | h
        · exact absurd h ha
        · exact h
      have := ih (alStore a (((alFind a s).getD 0 + 1) % 2 ^ 32) s) id hnd'.2 hmt
      unfold incrementScores at this
      rw [this, alFind_alStore_ne _ ha s]

/-- C3 amended: process_additions records a score increment of 1 (in u32)
for each id, and ensures the id is present in the queue, but through
push_decrease with the maximal priority Reverse(0), which inserts an absent
id with target 0 and leaves the priority of an already-present id
unchanged (it does not replace a larger target by 0); a next_batch(1) on a
one-element queue returns that element regardless of its target. -/
theorem c3_amended :
    (∀ (st : UserQueue) (ids : List Nat) (id : Nat), id ∈ ids →
      alFind id (st.processAdditions ids).scores =
        some (((alFind id st.scores).getD 0 + 1) % 2 ^ 32) ∧
      alFind id (st.processAdditions ids).underlying =
        some ((alFind id st.underlying).getD 0)) ∧
    (∀ (st : UserQueue) (i t : Nat), st.underlying = [(i, t)] →
      st.nextBatch 1 = [i]) := by
  constructor
  · intro st ids id hmem
    constructor
    · exact incrementScores_find ids.dedup st.scores id ids.nodup_dedup
        (List.mem_dedup.mpr hmem)
    · exact pushDecreaseZero_fold_find ids.dedup st.underlying id
        (List.mem_dedup.mpr hmem)
  · intro st i t h
    unfold UserQueue.nextBatch
    rw [h]
    simp [nextBatchGo, popMin, List.erase_cons_head]

/-- C3 counterexample: for an id already present with target 500, the claim
asserts presence with priority Reverse(0) after process_additions, but
push_decrease leaves the target at 500. -/
theorem c3_no_promotion_cex :
    alFind 1 ((UserQueue.processAdditions ⟨[(1, 500)], [], [], 7200⟩
        [1]).underlying) ≠ some 0 := by
  decide

theorem c3_amended_witness :
    alFind 1 ((UserQueue.processAdditions ⟨[(1, 500)], [], [], 7200⟩
        [1]).underlying) = some 500 := by
  have h := (c3_amended.1 ⟨[(1, 500)], [], [], 7200⟩ [1] 1 (by decide)).2
  exact h

/-! ### C5: score 0 in the target computation -/

theorem processUpdates_find_self (st : UserQueue) (now : Int) (id : Nat) :
    alFind id (st.processUpdates now [id]).underlying =
      some (computeTarget now ((alFind id st.scores).getD 1)) := by
  unfold UserQueue.processUpdates
  simp only [List.foldl_cons, List.foldl_nil]
  exact alFind_alStore_self _ _ _

/-- C5 amended: a missing score entry is treated as 1 by process_updates
(unwrap_or), but a stored score of 0 is not: MAX_TARGET_DAYS / 0.0 is +inf
in f32, the finite base plus infinity is infinity, and the saturating
float-to-u32 cast makes the target u32::MAX — the largest possible target,
not the finite score-1 target. The hypothesis states that now is
representable as a finite f32, true of every reachable wall-clock second. -/
theorem c5_amended :
    ∀ (st : UserQueue) (now : Int) (id : Nat) (a b : Int),
      F32.ofInt now = F32.fin a b →
      (alFind id st.scores = some 0 →
        alFind id (st.processUpdates now [id]).underlying = some (2 ^ 32 - 1)) ∧
      (alFind id st.scores = none →
        alFind id (st.processUpdates now [id]).underlying =
          some (computeTarget now 1)) := by
  intro st now id a b hfin
  have hfind := processUpdates_find_self st now id
  constructor
  · intro hs
    rw [hfind, hs]
    show some (computeTarget now 0) = some (2 ^ 32 - 1)
    congr 1
    simp only [computeTarget]
    rw [hfin]
    have h1 : F32.div (F32.ofInt 10) (F32.ofNat 0) = F32.inf := by decide
    rw [h1]
    have h2 : F32.mul (F32.mul (F32.mul F32.inf (F32.ofInt 24)) (F32.ofInt 60))
        (F32.ofInt 60) = F32.inf := by decide
    rw [h2]
    rfl
  · intro hs
    rw [hfind, hs]
    rfl

/-- C5 counterexample: with now = 0 the stored score 0 produces target
u32::MAX = 4294967295, while score 1 produces the finite target
0 + 10 * 86400 = 864000 the claim asserts for both. -/
theorem c5_score_zero_cex :
    alFind 7 ((UserQueue.processUpdates ⟨[], [(7, 0)], [], 7200⟩ 0
        [7]).underlying) = some 4294967295 ∧
    computeTarget 0 0 ≠ computeTarget 0 1 ∧
    computeTarget 0 1 = 864000 := by
  refine ⟨by decide, by decide, by decide⟩

theorem c5_amended_witness :
    alFind 7 ((UserQueue.processUpdates ⟨[], [(7, 0)], [], 7200⟩ 0
        [7]).underlying) = some (2 ^ 32 - 1) :=
  (c5_amended ⟨[], [(7, 0)], [], 7200⟩ 0 7 0 0 (by decide)).1 (by decide)

/-! ### C9: Log::update -/

theorem alModify_eq_alStore {α β : Type} [DecidableEq α] (k : α) (f : β → β) :
    ∀ (m : List (α × β)) (v : β), alFind k m = some v →
      alModify k f m = alStore k (f v) m := by
  intro m
  induction m with
  | nil => intro v h; cases h
  | cons hd t ih =>
    intro v h
    obtain ⟨k0, v0⟩ := hd
    by_cases hk : k0 = k
    · subst hk
      simp only [alFind, if_pos rfl] at h
      cases h
      simp [alModify, alStore]
    · simp only [alFind, if_neg hk] at h
      simp [alModify, alStore, hk, ih _ h]

theorem setLastReversal_eq (t : Int) :
    ∀ (es : List Entry) (last : Entry), es.getLast? = some last →
      setLastReversal t es = es.dropLast ++ [{ last with reversal := some t }] := by
  intro es
  induction es with
  | nil => intro last h; cases h
  | cons e r ih =>
    intro last h
    cases r with
    | nil =>
      simp only [List.getLast?_singleton] at h
      cases h
      rfl
    | cons e2 r2 =>
      rw [List.getLast?_cons_cons] at h
      show e :: setLastReversal t (e2 :: r2) = (e :: e2 :: r2).dropLast ++ _
      rw [ih last h]
      rfl

theorem updateGo_eq_specUpdateRun :
    ∀ (ps : List (Nat × Int)) (m : List (Nat × List Entry)) (acc : List (Nat × Int)),
      Log.updateGo m acc ps =
        ((specUpdateRun m ps).1, acc ++ (specUpdateRun m ps).2) := by
  intro ps
  induction ps with
  | nil => intro m acc; simp [Log.updateGo, specUpdateRun]
  | cons p ps ih =>
    intro m acc
    show Log.updateGo m acc (p :: ps) = _
    rw [Log.updateGo]
    cases hf : alFind p.1 m with
    | none =>
      simp only [Option.bind, specUpdateRun, specUpdateStep, hf]
      rw [ih]
      simp
    | some es =>
      cases hl : es.getLast? with
      | none =>
        simp only [Option.bind, specUpdateRun, specUpdateStep, hf, hl]
        rw [ih]
        simp
      | some last =>
        by_cases hrev : last.reversal = none
        · simp only [Option.bind, specUpdateRun, specUpdateStep, hf, hl, if_pos hrev]
          rw [ih, alModify_eq_alStore _ _ _ _ hf, setLastReversal_eq _ _ _ hl]
          simp
        · simp only [Option.bind, specUpdateRun, specUpdateStep, hf, hl, if_neg hrev]
          rw [ih]
          simp

/-- C9: Log::update never raises; each (user id, reversal time) pair sets
the reversal on that user's most recent entry exactly when that entry exists
and is open, every failing pair is collected, all pairs are processed, and
the call returns Ok exactly when no pair was invalid, otherwise the full
invalid list — i.e. update coincides with the step-by-step specification
specUpdateStep / specUpdateRun built from the claim's words. -/
theorem c9_update_spec :
    ∀ (l : Log) (ps : List (Nat × Int)),
      (l.update ps).1 = Log.mk (specUpdateRun l.entries ps).1 ∧
      (l.update ps).2 =
        (if (specUpdateRun l.entries ps).2 = [] then Except.ok ()
         else Except.error (specUpdateRun l.entries ps).2) := by
  intro l ps
  unfold Log.update
  rw [updateGo_eq_specUpdateRun ps l.entries []]
  constructor
  · rfl
  · simp only [List.nil_append]
    rcases h : (specUpdateRun l.entries ps).2 with _ | _
    · simp
    · simp

theorem c9_update_spec_witness :
    ((Log.mk [(4, [⟨FormerUserStatus.suspended, 10, none⟩])]).update
        [(4, 20), (4, 30)]).2 = Except.error [(4, 30)] := by
  have h := (c9_update_spec (Log.mk [(4, [⟨FormerUserStatus.suspended, 10, none⟩])])
    [(4, 20), (4, 30)]).2
  rw [h]
  rfl

/-! ### C4: Log::validate -/

theorem pairsOK_iff : ∀ es : List Entry, (Log.pairsOK es = true) ↔
    ∀ p ∈ es.zip es.tail, ∃ r, p.1.reversal = some r ∧ p.1.observed < r ∧
      p.1.observed < p.2.observed := by
  intro es
  induction es with
  | nil => simp [Log.pairsOK]
  | cons a t ih =>
    cases t with
    | nil => simp [Log.pairsOK]
    | cons b t2 =>
      rw [show Log.pairsOK (a :: b :: t2) =
          ((match a.reversal with
            | some reversal =>
              decide (a.observed < reversal) && decide (a.observed < b.observed)
            | none => false) && Log.pairsOK (b :: t2)) from rfl,
        Bool.and_eq_true, ih]
      simp only [List.tail_cons, List.zip_cons_cons, List.forall_mem_cons]
      cases hrev : a.reversal with
      | none => simp
      | some r0 =>
        constructor
        · rintro ⟨h1, h2⟩
          simp only [Bool.and_eq_true, decide_eq_true_eq] at h1
          exact ⟨⟨r0, rfl, h1.1, h1.2⟩, h2⟩
        · rintro ⟨⟨r, hr, h1, h2⟩, h3⟩
          cases hr
          simp only [Bool.and_eq_true, decide_eq_true_eq]
          exact ⟨⟨h1, h2⟩, h3⟩

theorem lastOK_iff : ∀ es : List Entry, (Log.lastOK es = true) ↔
    ∀ e, es.getLast? = some e → ∀ r, e.reversal = some r → e.observed < r := by
  intro es
  unfold Log.lastOK
  split
  next e heq =>
    split
    next r0 heq2 =>
      simp only [decide_eq_true_eq]
      constructor
      · intro h e' he' r' hr'
        rw [heq] at he'
        cases he'
        rw [heq2] at hr'
        cases hr'
        exact h
      · intro h
        exact h e heq r0 heq2
    next heq2 =>
      constructor
      · intro _ e' he' r' hr'
        rw [heq] at he'
        cases he'
        rw [heq2] at hr'
        cases hr'
      · intro _
        rfl
  next heq =>
    constructor
    · intro _ e' he' r' hr'
      rw [heq] at he'
      cases he'
    · intro _
      rfl

theorem validateEntries_iff (es : List Entry) :
    (Log.validateEntries es = true) ↔ codeValidEntries es := by
  unfold Log.validateEntries codeValidEntries
  rw [Bool.and_eq_true, pairsOK_iff, lastOK_iff]

theorem validate_badPred_iff (p : Nat × List Entry) :
    ((!(!p.2.isEmpty && Log.validateEntries p.2)) = true) ↔
      ¬(p.2 ≠ [] ∧ codeValidEntries p.2) := by
  constructor
  · intro h hcon
    obtain ⟨hne, hcv⟩ := hcon
    have h1 : p.2.isEmpty = false := by
      cases he : p.2.isEmpty
      · rfl
      · exact absurd (List.isEmpty_iff.mp he) hne
    have h2 : Log.validateEntries p.2 = true := (validateEntries_iff p.2).mpr hcv
    rw [h1, h2] at h
    cases h
  · intro h
    cases he : p.2.isEmpty
    · have hne : p.2 ≠ [] := by
        intro hh
        rw [List.isEmpty_iff.mpr hh] at he
        cases he
      have hv : Log.validateEntries p.2 = false := by
        cases hv : Log.validateEntries p.2
        · rfl
        · exact absurd ⟨hne, (validateEntries_iff p.2).mp hv⟩ h
      rw [hv]
      rfl
    · rfl

/-- C4 amended: validate succeeds iff every user's entries are non-empty,
every consecutive pair has the earlier reversal present with
observed_i < reversal_i and observed_i < observed_(i+1) (the code does NOT
require reversal_i < observed_(i+1)), and a final reversal, when present,
follows its own observation; on failure the error lists exactly the
violating user ids. -/
theorem c4_amended :
    ∀ l : Log,
      (Log.validate l = Except.ok () ↔
        ∀ p ∈ l.entries, p.2 ≠ [] ∧ codeValidEntries p.2) ∧
      (∀ ids, Log.validate l = Except.error ids →
        ∀ u, u ∈ ids ↔
          ∃ es, (u, es) ∈ l.entries ∧ ¬(es ≠ [] ∧ codeValidEntries es)) := by
  intro l
  constructor
  · unfold Log.validate
    by_cases h : ((l.entries.filter
        (fun p => !(!p.2.isEmpty && Log.validateEntries p.2))).map Prod.fst).isEmpty
    · rw [if_pos h]
      rw [List.isEmpty_iff, List.map_eq_nil_iff, List.filter_eq_nil_iff] at h
      constructor
      · intro _ p hp
        exact not_not.mp (((validate_badPred_iff p).not).mp (h p hp))
      · intro _
        rfl
    · rw [if_neg h]
      rw [List.isEmpty_iff, List.map_eq_nil_iff, List.filter_eq_nil_iff] at h
      push_neg at h
      constructor
      · intro hc
        cases hc
      · intro hall
        obtain ⟨p, hp, hb⟩ := h
        exact absurd (hall p hp) ((validate_badPred_iff p).mp hb)
  · intro ids hids u
    unfold Log.validate at hids
    by_cases h : ((l.entries.filter
        (fun p => !(!p.2.isEmpty && Log.validateEntries p.2))).map Prod.fst).isEmpty
    · rw [if_pos h] at hids
      cases hids
    · rw [if_neg h] at hids
      cases hids
      constructor
      · intro hu
        rcases List.mem_map.mp hu with ⟨p, hp, he⟩
        rcases List.mem_filter.mp hp with ⟨hpl, hpb⟩
        exact ⟨p.2, by rw [← he]; exact hpl, (validate_badPred_iff p).mp hpb⟩
      · rintro ⟨es, hmem, hbadp⟩
        exact List.mem_map.mpr ⟨(u, es),
          List.mem_filter.mpr ⟨hmem, (validate_badPred_iff (u, es)).mpr hbadp⟩, rfl⟩

/-- C4 counterexample: the log with entries (observed 1, reversal 5),
(observed 2, reversal 3) for user 9 passes validate (the code checks
observed_0 < reversal_0 and observed_0 < observed_1 only), yet the claim's
condition requires reversal_0 < observed_1, i.e. 5 < 2, which fails. -/
theorem c4_validate_cex :
    Log.validate (Log.mk [(9, [⟨FormerUserStatus.notFound, 1, some 5⟩,
        ⟨FormerUserStatus.notFound, 2, some 3⟩])]) = Except.ok () ∧
    ¬ claimValidEntries [⟨FormerUserStatus.notFound, 1, some 5⟩,
        ⟨FormerUserStatus.notFound, 2, some 3⟩] := by
  constructor
  · rfl
  · rintro ⟨-, h⟩
    obtain ⟨r, hr, -, hlt⟩ :=
      h (⟨FormerUserStatus.notFound, 1, some 5⟩,
         ⟨FormerUserStatus.notFound, 2, some 3⟩) (by simp)
    cases hr
    exact absurd hlt (by norm_num)

theorem c4_amended_witness : Log.validate (Log.mk []) = Except.ok () :=
  (c4_amended (Log.mk [])).1.mpr (by simp)

/-! ### C1: the merge reducer -/

theorem seed_le_foldl_max : ∀ (l : List Int) (b : Int), b ≤ l.foldl max b := by
  intro l
  induction l with
  | nil => intro b; exact le_refl b
  | cons a t ih =>
    intro b
    exact le_trans (le_max_left b a) (ih (max b a))

theorem merge_fold_split :
    ∀ (ops : List PVal) (t0 : Int) (u0 : User),
      ops.foldl mergeStep (some t0, some u0) =
        (some (ops.foldl (fun t v => if v.1 < t then v.1 else t) t0),
         some (ops.foldl (fun u v => if v.2.snapshot > u.snapshot then v.2 else u) u0)) := by
  intro ops
  induction ops with
  | nil => intro t0 u0; rfl
  | cons v t ih =>
    intro t0 u0
    simp only [List.foldl_cons]
    rw [show mergeStep (some t0, some u0) v =
      (some (if v.1 < t0 then v.1 else t0),
       some (if v.2.snapshot > u0.snapshot then v.2 else u0)) from by
        unfold mergeStep
        by_cases h1 : v.1 < t0 <;> by_cases h2 : v.2.snapshot > u0.snapshot <;>
          simp [h1, h2]]
    rw [ih]

theorem merge_some_eq (x : PVal) (ops : List PVal) :
    merge (some x) ops =
      some (ops.foldl (fun t v => if v.1 < t then v.1 else t) x.1,
            ops.foldl (fun u v => if v.2.snapshot > u.snapshot then v.2 else u) x.2) := by
  unfold merge
  rw [show ((some x).map Prod.fst, (some x).map Prod.snd) =
    ((some x.1 : Option Int), (some x.2 : Option User)) from rfl]
  rw [merge_fold_split]

theorem merge_none_cons (x : PVal) (ops : List PVal) :
    merge none (x :: ops) = merge (some x) ops := by
  unfold merge
  rw [List.foldl_cons]
  rw [show mergeStep ((none : Option PVal).map Prod.fst,
      (none : Option PVal).map Prod.snd) x =
      ((some x.1 : Option Int), (some x.2 : Option User)) from rfl]
  rw [show (((some x).map Prod.fst : Option Int),
      ((some x).map Prod.snd : Option User)) =
      ((some x.1 : Option Int), (some x.2 : Option User)) from rfl]
  rw [merge_fold_split]

theorem minFold_eq :
    ∀ (ops : List PVal) (t0 : Int),
      ops.foldl (fun t v => if v.1 < t then v.1 else t) t0 =
        (ops.map Prod.fst).foldl min t0 := by
  intro ops
  induction ops with
  | nil => intro t0; rfl
  | cons v t ih =>
    intro t0
    simp only [List.foldl_cons, List.map_cons]
    rw [ih]
    congr 1
    rw [min_def]
    by_cases h : v.1 < t0
    · rw [if_pos h, if_neg (by omega)]
    · rw [if_neg h, if_pos (by omega)]

theorem umaxFold_eq :
    ∀ (ops : List PVal) (x : PVal),
      ops.foldl (fun u v => if v.2.snapshot > u.snapshot then v.2 else u) x.2 =
        (ops.foldl (fun p v => if v.2.snapshot > p.2.snapshot then v else p) x).2 := by
  intro ops
  induction ops with
  | nil => intro x; rfl
  | cons v t ih =>
    intro x
    simp only [List.foldl_cons]
    rw [show (if v.2.snapshot > x.2.snapshot then v.2 else x.2) =
      (if v.2.snapshot > x.2.snapshot then v else x).2 from by
        by_cases h : v.2.snapshot > x.2.snapshot
        · rw [if_pos h, if_pos h]
        · rw [if_neg h, if_neg h]]
    exact ih (if v.2.snapshot > x.2.snapshot then v else x)

theorem maxSnapshot_cons (x v : PVal) (t : List PVal) :
    maxSnapshot x (v :: t) =
      maxSnapshot (if v.2.snapshot > x.2.snapshot then v else x) t := by
  unfold maxSnapshot
  simp only [List.map_cons, List.foldl_cons]
  congr 1
  by_cases h : v.2.snapshot > x.2.snapshot
  · rw [if_pos h, max_eq_right (le_of_lt h)]
  · rw [if_neg h, max_eq_left (by omega)]

theorem maxSnapshot_ge (x : PVal) (t : List PVal) :
    x.2.snapshot ≤ maxSnapshot x t := by
  unfold maxSnapshot
  exact seed_le_foldl_max _ _

theorem find_lmax :
    ∀ (ops : List PVal) (x : PVal),
      (x :: ops).find? (fun v => v.2.snapshot = maxSnapshot x ops) =
        some (ops.foldl (fun p v => if v.2.snapshot > p.2.snapshot then v else p) x) := by
  intro ops
  induction ops with
  | nil =>
    intro x
    rw [List.find?_cons_of_pos _ (by simp [maxSnapshot])]
    rfl
  | cons v t ih =>
    intro x
    rw [maxSnapshot_cons]
    simp only [List.foldl_cons]
    by_cases hv : v.2.snapshot > x.2.snapshot
    · rw [if_pos hv] at *
      have hxne : ¬ (x.2.snapshot = maxSnapshot v t) := by
        have := maxSnapshot_ge v t
        omega
      rw [List.find?_cons_of_neg _ (by simpa using hxne)]
      exact ih v
    · rw [if_neg hv] at *
      by_cases hx : x.2.snapshot = maxSnapshot x t
      · rw [List.find?_cons_of_pos _ (by simpa using hx)]
        have := ih x
        rw [List.find?_cons_of_pos _ (by simpa using hx)] at this
        exact this
      · have hxlt : x.2.snapshot < maxSnapshot x t := by
          have := maxSnapshot_ge x t
          omega
        have hvne : ¬ (v.2.snapshot = maxSnapshot x t) := by omega
        rw [List.find?_cons_of_neg _ (by simpa using hx),
          List.find?_cons_of_neg _ (by simpa using hvne)]
        have := ih x
        rw [List.find?_cons_of_neg _ (by simpa using hx)] at this
        exact this

theorem merge_some_spec (x : PVal) (ops : List PVal) :
    merge (some x) ops = specMergeOut x ops := by
  rw [merge_some_eq]
  unfold specMergeOut
  rw [find_lmax, Option.map_some']
  rw [minFold_eq]
  rw [umaxFold_eq]
  rfl

theorem merge_merge_pair (ex : Option PVal) (v1 v2 : PVal) :
    merge (merge ex [v1]) [v2] = merge ex [v1, v2] := by
  cases ex with
  | none =>
    rw [show merge none [v1, v2] = merge (some v1) [v2] from
      merge_none_cons v1 [v2]]
    rw [show merge none [v1] = merge (some v1) [] from merge_none_cons v1 []]
    rw [show merge (some v1) [] = some v1 from by rw [merge_some_eq]; rfl]
  | some a =>
    rw [merge_some_eq a [v1]]
    rw [merge_some_eq, merge_some_eq]
    rfl

theorem merge_pair_comm (ex : Option PVal) (v1 v2 : PVal)
    (hsnap : v1.2.snapshot ≠ v2.2.snapshot) :
    merge ex [v1, v2] = merge ex [v2, v1] := by
  cases ex with
  | none =>
    rw [merge_none_cons, merge_none_cons, merge_some_eq, merge_some_eq]
    simp only [List.foldl_cons, List.foldl_nil]
    congr 1
    exact Prod.ext (by split_ifs <;> first | rfl | omega)
      (by split_ifs <;> first | rfl | (exfalso; omega))
  | some a =>
    rw [merge_some_eq, merge_some_eq]
    simp only [List.foldl_cons, List.foldl_nil]
    congr 1
    exact Prod.ext (by split_ifs <;> first | rfl | omega)
      (by split_ifs <;> first | rfl | (exfalso; omega))

/-- C1 amended: the reducer's output on decodable inputs is exactly
be64(m) followed by the encoding of p, where m is the minimum
first_observed over the existing value and all operands and p is the payload
of the leftmost input attaining the maximum snapshot (specMergeOut); the
combined effect of two updates to the same key is order-independent
PROVIDED their payload snapshots differ — on a snapshot tie the leftmost
payload is retained, so arrival order decides the stored payload. -/
theorem c1_amended :
    (∀ (x : PVal) (rest : List PVal),
      merge (some x) rest = specMergeOut x rest ∧
      merge none (x :: rest) = specMergeOut x rest) ∧
    (∀ (ex : Option PVal) (v1 v2 : PVal), v1.2.snapshot ≠ v2.2.snapshot →
      merge ex [v1, v2] = merge ex [v2, v1] ∧
      merge (merge ex [v1]) [v2] = merge (merge ex [v2]) [v1]) := by
  constructor
  · intro x rest
    exact ⟨merge_some_spec x rest,
      by rw [merge_none_cons]; exact merge_some_spec x rest⟩
  · intro ex v1 v2 hsnap
    refine ⟨merge_pair_comm ex v1 v2 hsnap, ?_⟩
    rw [merge_merge_pair, merge_merge_pair]
    exact merge_pair_comm ex v1 v2 hsnap

/-- C1 counterexample: two updates under the same key whose values carry
the same snapshot but different payloads (follower counts 1 and 2) produce
different merged cells depending on arrival order, refuting the claim's
unconditional order-independence. -/
theorem c1_merge_order_cex :
    merge (merge none [(10, ⟨1, "x", 5, 1, 0, false⟩)])
        [(10, ⟨1, "x", 5, 2, 0, false⟩)] ≠
      merge (merge none [(10, ⟨1, "x", 5, 2, 0, false⟩)])
        [(10, ⟨1, "x", 5, 1, 0, false⟩)] := by
  decide

theorem c1_amended_witness :
    merge (merge none [((10 : Int), User.mk 1 "x" 100 1 0 false)])
        [((20 : Int), User.mk 1 "x" 200 2 0 false)] =
      merge (merge none [((20 : Int), User.mk 1 "x" 200 2 0 false)])
        [((10 : Int), User.mk 1 "x" 100 1 0 false)] :=
  (c1_amended.2 none ((10 : Int), User.mk 1 "x" 100 1 0 false)
    ((20 : Int), User.mk 1 "x" 200 2 0 false) (by decide)).2

/-! ### C6: ProfileDb::lookup -/

theorem dbUpdate_eq_alStore (db : ProfileDb) (u : User) :
    ∃ val, dbUpdate db u = alStore (makeKey u) val db := by
  simp only [dbUpdate]
  cases hf : alFind (makeKey u) db with
  | some old =>
    rw [merge_some_eq]
    exact ⟨_, rfl⟩
  | none =>
    rw [show merge none [(u.snapshot, u)] = some (u.snapshot, u) from by
      rw [merge_none_cons, merge_some_eq]; rfl]
    exact ⟨_, rfl⟩

theorem dbUpdate_keys_mem (db : ProfileDb) (u : User) (z : PKey) :
    z ∈ alKeys (dbUpdate db u) ↔ z ∈ alKeys db ∨ z = makeKey u := by
  obtain ⟨val, heq⟩ := dbUpdate_eq_alStore db u
  rw [heq, alKeys_alStore]
  by_cases h : makeKey u ∈ alKeys db
  · rw [if_pos h]
    constructor
    · exact Or.inl
    · rintro (hz | hz)
      · exact hz
      · exact hz ▸ h
  · rw [if_neg h]
    simp [List.mem_append]

theorem dbUpdate_keys_nodup (db : ProfileDb) (u : User)
    (h : (alKeys db).Nodup) : (alKeys (dbUpdate db u)).Nodup := by
  obtain ⟨val, heq⟩ := dbUpdate_eq_alStore db u
  rw [heq, alKeys_alStore]
  by_cases hm : makeKey u ∈ alKeys db
  · rw [if_pos hm]
    exact h
  · rw [if_neg hm]
    simp [List.nodup_append, h, hm]

theorem dbOfUpdates_keys :
    ∀ (us : List User) (db : ProfileDb), (alKeys db).Nodup →
      (alKeys (us.foldl dbUpdate db)).Nodup ∧
      (∀ z, z ∈ alKeys (us.foldl dbUpdate db) ↔
        z ∈ alKeys db ∨ z ∈ us.map makeKey) := by
  intro us
  induction us with
  | nil =>
    intro db h
    exact ⟨h, fun z => by simp⟩
  | cons u t ih =>
    intro db h
    rw [List.foldl_cons]
    obtain ⟨hnd, hmem⟩ := ih (dbUpdate db u) (dbUpdate_keys_nodup db u h)
    refine ⟨hnd, fun z => ?_⟩
    rw [hmem z, dbUpdate_keys_mem db u z]
    simp only [List.map_cons, List.mem_cons]
    tauto

theorem filter_fst_length {β : Type} (db : List (PKey × β)) (uid : Nat) :
    (db.filter (fun kv => kv.1.1 = uid)).length =
      ((alKeys db).filter (fun k => k.1 = uid)).length := by
  induction db with
  | nil => rfl
  | cons kv t ih =>
    by_cases h : kv.1.1 = uid
    · simp only [alKeys, List.map_cons, List.filter_cons] at ih ⊢
      rw [if_pos (by simpa using h), if_pos (by simpa using h)]
      simp only [List.length_cons]
      rw [ih]
    · simp only [alKeys, List.map_cons, List.filter_cons] at ih ⊢
      rw [if_neg (by simpa using h), if_neg (by simpa using h)]
      exact ih

/-- C6 amended: lookup returns the stored entries sorted ascending (not in
general strictly ascending) by payload snapshot, with exactly one entry per
distinct lowercased screen name ever written for the id bits, and the empty
list when no update matches. -/
theorem c6_amended :
    ∀ (us : List User) (uid : Nat),
      List.Sorted snapLE (dbLookup uid (dbOfUpdates us)) ∧
      (dbLookup uid (dbOfUpdates us)).length =
        ((us.filter (fun u => u64OfI64 u.id = uid)).map
          (fun u => lowerChars u.screenName)).dedup.length ∧
      (us.filter (fun u => u64OfI64 u.id = uid) = [] →
        dbLookup uid (dbOfUpdates us) = []) := by
  intro us uid
  have hsorted : List.Sorted snapLE (dbLookup uid (dbOfUpdates us)) :=
    List.sorted_insertionSort snapLE _
  obtain ⟨hnd, hmem⟩ := dbOfUpdates_keys us [] (by simp [alKeys])
  have hmem0 : ∀ z, z ∈ alKeys (dbOfUpdates us) ↔ z ∈ us.map makeKey := by
    intro z
    unfold dbOfUpdates
    rw [hmem z]
    simp [alKeys]
  have hlen : (dbLookup uid (dbOfUpdates us)).length =
      ((us.filter (fun u => u64OfI64 u.id = uid)).map
        (fun u => lowerChars u.screenName)).dedup.length := by
    have h1 : (dbLookup uid (dbOfUpdates us)).length =
        (((dbOfUpdates us).filter (fun kv => kv.1.1 = uid)).map Prod.snd).length :=
      (List.perm_insertionSort snapLE _).length_eq
    rw [h1, List.length_map, filter_fst_length]
    have hndf : ((alKeys (dbOfUpdates us)).filter
        (fun k => k.1 = uid)).Nodup := hnd.filter _
    have hsnd : (((alKeys (dbOfUpdates us)).filter
        (fun k => k.1 = uid)).map Prod.snd).Nodup := by
      refine List.Nodup.map_on ?_ hndf
      intro x hx y hy hxy
      have hx1 := (List.mem_filter.mp hx).2
      have hy1 := (List.mem_filter.mp hy).2
      rw [decide_eq_true_eq] at hx1 hy1
      exact Prod.ext (hx1.trans hy1.symm) hxy
    have hperm : (((alKeys (dbOfUpdates us)).filter
          (fun k => k.1 = uid)).map Prod.snd).Perm
        ((us.filter (fun u => u64OfI64 u.id = uid)).map
          (fun u => lowerChars u.screenName)).dedup := by
      refine (List.perm_ext_iff_of_nodup hsnd (List.nodup_dedup _)).mpr ?_
      intro nm
      rw [List.mem_dedup]
      constructor
      · intro hnm
        rcases List.mem_map.mp hnm with ⟨k, hk, hk2⟩
        rcases List.mem_filter.mp hk with ⟨hkmem, hk1⟩
        rw [decide_eq_true_eq] at hk1
        rcases List.mem_map.mp ((hmem0 k).mp hkmem) with ⟨u, hu, hku⟩
        refine List.mem_map.mpr ⟨u, List.mem_filter.mpr ⟨hu, ?_⟩, ?_⟩
        · rw [decide_eq_true_eq]
          rw [← hku] at hk1
          exact hk1
        · rw [← hk2, ← hku]
          rfl
      · intro hnm
        rcases List.mem_map.mp hnm with ⟨u, hu, hnm2⟩
        rcases List.mem_filter.mp hu with ⟨humem, hid⟩
        rw [decide_eq_true_eq] at hid
        refine List.mem_map.mpr ⟨makeKey u, List.mem_filter.mpr
          ⟨(hmem0 (makeKey u)).mpr (List.mem_map.mpr ⟨u, humem, rfl⟩), ?_⟩, ?_⟩
        · rw [decide_eq_true_eq]
          exact hid
        · exact hnm2
    have := hperm.length_eq
    rw [List.length_map] at this
    exact this
  refine ⟨hsorted, hlen, fun hempty => ?_⟩
  rw [hempty] at hlen
  exact List.length_eq_zero.mp (by simpa using hlen)

/-- C6 counterexample: two updates for the same id under distinct screen
names with equal snapshots yield a lookup whose entries are not strictly
ascending by snapshot. -/
theorem c6_strict_cex :
    ¬ (dbLookup 1 (dbOfUpdates [⟨1, "a", 100, 1, 0, false⟩,
        ⟨1, "b", 100, 2, 0, false⟩])).Pairwise
      (fun a b => a.2.snapshot < b.2.snapshot) := by
  decide

theorem c6_amended_witness :
    dbLookup 7 (dbOfUpdates [⟨1, "a", 100, 1, 0, false⟩]) = [] :=
  (c6_amended [⟨1, "a", 100, 1, 0, false⟩] 7).2.2 (by decide)

/-! ### C7: the Add merge of two logs -/

theorem logAdd_find :
    ∀ (l2e m : List (Nat × List Entry)), (alKeys l2e).Nodup → ∀ u,
      alFind u (l2e.foldl
        (fun m p => alStore p.1 (addProcess ((alFind p.1 m).getD []) p.2) m) m) =
        (match alFind u l2e with
         | some ys => some (addProcess ((alFind u m).getD []) ys)
         | none => alFind u m) := by
  intro l2e
  induction l2e with
  | nil => intro m _ u; rfl
  | cons p rest ih =>
    intro m hnd u
    obtain ⟨k, ys⟩ := p
    simp only [alKeys, List.map_cons, List.nodup_cons] at hnd
    have hknotin : k ∉ alKeys rest := by
      intro hmem
      exact hnd.1 (by simpa [alKeys] using hmem)
    rw [List.foldl_cons]
    rw [ih _ (by simpa [alKeys] using hnd.2) u]
    by_cases hu : k = u
    · subst hu
      rw [alFind_eq_none_iff.mpr hknotin]
      rw [show alFind k ((k, ys) :: rest) = some ys from by simp [alFind]]
      rw [alFind_alStore_self]
    · rw [show alFind u ((k, ys) :: rest) = alFind u rest from by
        simp [alFind, hu]]
      rw [alFind_alStore_ne _ (fun hh => hu hh.symm) m]

theorem sortObs_canonical {es : List Entry} (h : es.Pairwise obsLT) :
    sortObs es = es :=
  List.Sorted.insertionSort_eq (h.imp (fun hab => le_of_lt hab))

theorem dedupAdj_canonical :
    ∀ {es : List Entry}, es.Pairwise obsLT → dedupAdj es = es := by
  intro es
  induction es with
  | nil => intro _; rfl
  | cons a t ih =>
    intro h
    cases t with
    | nil => rfl
    | cons b t2 =>
      have hab : obsLT a b := (List.pairwise_cons.mp h).1 b (List.mem_cons_self b t2)
      have hne : a ≠ b := by
        intro he
        rw [he] at hab
        exact lt_irrefl _ hab
      show dedupAdj (a :: b :: t2) = a :: b :: t2
      unfold dedupAdj
      rw [if_neg hne]
      have := ih (List.pairwise_cons.mp h).2
      rw [this]

theorem addProcess_id {es : List Entry} (h : EntriesCanonical es) :
    collapseTrailing (dedupAdj (sortObs es)) = es := by
  rw [sortObs_canonical h.1, dedupAdj_canonical h.1, h.2]

theorem sortObs_comm (xs ys : List Entry)
    (hxs : xs.Pairwise obsLT) (hys : ys.Pairwise obsLT)
    (hcross : ∀ a ∈ xs, ∀ b ∈ ys, a.observed ≠ b.observed) :
    sortObs (xs ++ ys) = sortObs (ys ++ xs) := by
  have hpair : (xs ++ ys).Pairwise (fun a b => a.observed ≠ b.observed) := by
    rw [List.pairwise_append]
    exact ⟨hxs.imp (fun hab => ne_of_lt hab),
      hys.imp (fun hab => ne_of_lt hab), hcross⟩
  have hperm1 := List.perm_insertionSort obsLE (xs ++ ys)
  have hperm2 := List.perm_insertionSort obsLE (ys ++ xs)
  have hp : (sortObs (xs ++ ys)).Perm (sortObs (ys ++ xs)) :=
    hperm1.trans ((List.perm_append_comm).trans hperm2.symm)
  have hs1 : (sortObs (xs ++ ys)).Pairwise obsLE :=
    List.sorted_insertionSort obsLE (xs ++ ys)
  have hs2 : (sortObs (ys ++ xs)).Pairwise obsLE :=
    List.sorted_insertionSort obsLE (ys ++ xs)
  have hne1 : (sortObs (xs ++ ys)).Pairwise (fun a b => a.observed ≠ b.observed) :=
    (hperm1.pairwise_iff (fun {a b} h => Ne.symm h)).mpr hpair
  have hne2 : (sortObs (ys ++ xs)).Pairwise (fun a b => a.observed ≠ b.observed) :=
    (hperm2.pairwise_iff (fun {a b} h => Ne.symm h)).mpr (by
      rw [List.pairwise_append]
      exact ⟨hys.imp (fun hab => ne_of_lt hab), hxs.imp (fun hab => ne_of_lt hab),
        fun b hb a ha => (hcross a ha b hb).symm⟩)
  have hst1 : List.Sorted obsLT (sortObs (xs ++ ys)) :=
    (hs1.and hne1).imp (fun hab => lt_of_le_of_ne hab.1 hab.2)
  have hst2 : List.Sorted obsLT (sortObs (ys ++ xs)) :=
    (hs2.and hne2).imp (fun hab => lt_of_le_of_ne hab.1 hab.2)
  exact List.eq_of_perm_of_sorted hp hst1 hst2

/-- C7 amended: the Add merge of two logs is commutative (up to HashMap
equality) when every per-user list of both logs is canonical — strictly
increasing observed times and already collapsed — and no user common to
the two logs shares an observation time across them; it is not associative
even under these conditions (second conjunct, three canonical single-entry
logs), and without them it is not commutative (see the counterexample). -/
theorem c7_amended :
    (∀ (l1 l2 : Log), (alKeys l1.entries).Nodup → (alKeys l2.entries).Nodup →
      (∀ p ∈ l1.entries, EntriesCanonical p.2) →
      (∀ p ∈ l2.entries, EntriesCanonical p.2) →
      LogCrossDistinct l1 l2 → Log.Equiv (logAdd l1 l2) (logAdd l2 l1)) ∧
    ¬ Log.Equiv
      (logAdd (logAdd (Log.mk [(7, [⟨FormerUserStatus.notFound, 1, none⟩])])
                      (Log.mk [(7, [⟨FormerUserStatus.notFound, 3, none⟩])]))
              (Log.mk [(7, [⟨FormerUserStatus.notFound, 2, some 25⟩])]))
      (logAdd (Log.mk [(7, [⟨FormerUserStatus.notFound, 1, none⟩])])
              (logAdd (Log.mk [(7, [⟨FormerUserStatus.notFound, 3, none⟩])])
                      (Log.mk [(7, [⟨FormerUserStatus.notFound, 2, some 25⟩])]))) := by
  constructor
  · intro l1 l2 hnd1 hnd2 hcan1 hcan2 hcross u
    show alFind u (logAdd l1 l2).entries = alFind u (logAdd l2 l1).entries
    rw [show (logAdd l1 l2).entries = l2.entries.foldl
      (fun m p => alStore p.1 (addProcess ((alFind p.1 m).getD []) p.2) m)
      l1.entries from rfl]
    rw [show (logAdd l2 l1).entries = l1.entries.foldl
      (fun m p => alStore p.1 (addProcess ((alFind p.1 m).getD []) p.2) m)
      l2.entries from rfl]
    rw [logAdd_find l2.entries l1.entries hnd2 u,
      logAdd_find l1.entries l2.entries hnd1 u]
    cases h1 : alFind u l1.entries with
    | none =>
      cases h2 : alFind u l2.entries with
      | none => rfl
      | some ys =>
        have hysc : EntriesCanonical ys := hcan2 (u, ys) (mem_of_alFind_some h2)
        show some (addProcess [] ys) = some ys
        unfold addProcess
        rw [List.nil_append, addProcess_id hysc]
    | some xs =>
      have hxsc : EntriesCanonical xs := hcan1 (u, xs) (mem_of_alFind_some h1)
      cases h2 : alFind u l2.entries with
      | none =>
        show some xs = some (addProcess [] xs)
        unfold addProcess
        rw [List.nil_append, addProcess_id hxsc]
      | some ys =>
        have hysc : EntriesCanonical ys := hcan2 (u, ys) (mem_of_alFind_some h2)
        show some (addProcess xs ys) = some (addProcess ys xs)
        unfold addProcess
        rw [sortObs_comm xs ys hxsc.1 hysc.1 (hcross u xs ys h1 h2)]
  · intro h
    exact absurd (h 7) (by decide)

/-- C7 counterexample: two logs holding one open entry each for the same
user at the same observed time but with different statuses merge to
different logs depending on operand order, so the claimed unconditional
commutativity (and hence the claim) fails. -/
theorem c7_comm_cex :
    ¬ Log.Equiv
      (logAdd (Log.mk [(7, [⟨FormerUserStatus.notFound, 5, none⟩])])
              (Log.mk [(7, [⟨FormerUserStatus.suspended, 5, none⟩])]))
      (logAdd (Log.mk [(7, [⟨FormerUserStatus.suspended, 5, none⟩])])
              (Log.mk [(7, [⟨FormerUserStatus.notFound, 5, none⟩])])) := by
  intro h
  exact absurd (h 7) (by decide)

theorem c7_amended_witness :
    Log.Equiv
      (logAdd (Log.mk [(1, [⟨FormerUserStatus.notFound, 1, none⟩])])
              (Log.mk [(1, [⟨FormerUserStatus.suspended, 5, none⟩])]))
      (logAdd (Log.mk [(1, [⟨FormerUserStatus.suspended, 5, none⟩])])
              (Log.mk [(1, [⟨FormerUserStatus.notFound, 1, none⟩])])) := by
  refine c7_amended.1 _ _ (by decide) (by decide) (by decide) (by decide) ?_
  intro u xs ys h1 h2 a ha b hb
  by_cases hu : (1 : Nat) = u
  · subst hu
    simp only [alFind, if_pos rfl] at h1 h2
    cases h1
    cases h2
    rcases List.mem_singleton.mp ha with rfl
    rcases List.mem_singleton.mp hb with rfl
    decide
  · simp only [alFind, if_neg hu] at h1
    cases h1

/-! ### C8: the write / read round trip -/

theorem digitVal_digitChar : ∀ d : Nat, d < 10 → digitVal (Nat.digitChar d) = d := by
  decide

theorem isDigit_digitChar : ∀ d : Nat, d < 10 → (Nat.digitChar d).isDigit = true := by
  decide

theorem natReprAux_digits :
    ∀ (fuel n : Nat), ∀ c ∈ natReprAux fuel n, c.isDigit = true := by
  intro fuel
  induction fuel with
  | zero => intro n c hc; cases hc
  | succ f ih =>
    intro n c hc
    unfold natReprAux at hc
    by_cases hn : n = 0
    · rw [if_pos hn] at hc
      cases hc
    · rw [if_neg hn] at hc
      rcases List.mem_append.mp hc with h | h
      · exact ih (n / 10) c h
      · rcases List.mem_singleton.mp h with rfl
        exact isDigit_digitChar _ (Nat.mod_lt n (by norm_num))

theorem natReprAux_foldl :
    ∀ (fuel n a : Nat), n ≤ fuel →
      (natReprAux fuel n).foldl (fun a c => a * 10 + digitVal c) a =
        a * 10 ^ (natReprAux fuel n).length + n := by
  intro fuel
  induction fuel with
  | zero =>
    intro n a hn
    interval_cases n
    simp [natReprAux]
  | succ f ih =>
    intro n a hn
    by_cases hz : n = 0
    · subst hz
      simp [natReprAux]
    · have hstep : natReprAux (f + 1) n =
          natReprAux f (n / 10) ++ [Nat.digitChar (n % 10)] := by
        simp only [natReprAux]
        rw [if_neg hz]
      rw [hstep, List.foldl_append, List.length_append]
      have hdiv : n / 10 ≤ f := by
        have : n / 10 < n := Nat.div_lt_self (Nat.pos_of_ne_zero hz) (by norm_num)
        omega
      rw [ih (n / 10) a hdiv]
      simp only [List.foldl_cons, List.foldl_nil, List.length_singleton]
      rw [digitVal_digitChar _ (Nat.mod_lt n (by norm_num))]
      have hmod := Nat.div_add_mod n 10
      calc (a * 10 ^ (natReprAux f (n / 10)).length + n / 10) * 10 + n % 10
          = a * (10 ^ (natReprAux f (n / 10)).length * 10) +
            (10 * (n / 10) + n % 10) := by ring
        _ = a * 10 ^ ((natReprAux f (n / 10)).length + 1) + n := by
            rw [pow_succ, hmod]

theorem natRepr_digits : ∀ n, ∀ c ∈ natRepr n, c.isDigit = true := by
  intro n c hc
  unfold natRepr at hc
  by_cases hz : n = 0
  · rw [if_pos hz] at hc
    rcases List.mem_singleton.mp hc with rfl
    decide
  · rw [if_neg hz] at hc
    exact natReprAux_digits n n c hc

theorem natRepr_ne_nil : ∀ n, natRepr n ≠ [] := by
  intro n
  unfold natRepr
  by_cases hz : n = 0
  · rw [if_pos hz]
    simp
  · rw [if_neg hz]
    intro hnil
    have h := natReprAux_foldl n n 0 (le_refl n)
    rw [hnil] at h
    simp at h
    exact hz h.symm

theorem parseDigits_eq (cs : List Char) (hne : cs ≠ [])
    (hd : ∀ c ∈ cs, c.isDigit = true) :
    parseDigits cs = some (cs.foldl (fun a c => a * 10 + digitVal c) 0) := by
  cases cs with
  | nil => exact absurd rfl hne
  | cons c t =>
    show (if (c :: t).all Char.isDigit then _ else none) = _
    rw [if_pos (by
      rw [List.all_eq_true]
      intro x hx
      exact hd x hx)]

theorem parseDigits_natRepr (n : Nat) : parseDigits (natRepr n) = some n := by
  by_cases hz : n = 0
  · subst hz
    rfl
  · rw [parseDigits_eq _ (natRepr_ne_nil n) (natRepr_digits n)]
    unfold natRepr
    rw [if_neg hz]
    rw [natReprAux_foldl n n 0 (le_refl n)]
    simp

theorem stripPlus_digits (cs : List Char) (hd : ∀ c ∈ cs, c.isDigit = true) :
    stripPlus cs = cs := by
  cases cs with
  | nil => rfl
  | cons c t =>
    show (if c = '+' then t else c :: t) = c :: t
    rw [if_neg (by
      intro he
      have := hd c (List.mem_cons_self c t)
      rw [he] at this
      exact absurd this (by decide))]

theorem parseU64_natReprS (u : Nat) (hu : u < 2 ^ 64) :
    parseU64 (natReprS u) = some u := by
  unfold parseU64 natReprS
  rw [show (String.mk (natRepr u)).data = natRepr u from rfl]
  rw [stripPlus_digits _ (natRepr_digits u), parseDigits_natRepr]
  rw [show ((some u).bind (fun n => if n < 2 ^ 64 then some n else none)) =
    (if u < 2 ^ 64 then some u else none) from rfl, if_pos hu]

theorem intRepr_ne_nil (i : Int) : intRepr i ≠ [] := by
  unfold intRepr
  by_cases hneg : i < 0
  · rw [if_pos hneg]
    simp
  · rw [if_neg hneg]
    exact natRepr_ne_nil _

theorem intReprS_ne_empty (i : Int) : intReprS i ≠ "" := by
  intro h
  exact intRepr_ne_nil i (congrArg String.data h)

theorem parseIntB_intReprS (bound : Nat) (t : Int)
    (h1 : -(bound : Int) ≤ t) (h2 : t < bound) :
    parseIntB bound (intReprS t) = some t := by
  unfold parseIntB intReprS
  rw [show (String.mk (intRepr t)).data = intRepr t from rfl]
  by_cases hneg : t < 0
  · have hdata : intRepr t = '-' :: natRepr (-t).toNat := by
      unfold intRepr
      rw [if_pos hneg]
    rw [hdata]
    rw [show ('-' :: natRepr (-t).toNat : List Char).head? = some '-' from rfl]
    rw [if_pos rfl]
    rw [show ('-' :: natRepr (-t).toNat : List Char).tail = natRepr (-t).toNat
      from rfl]
    rw [parseDigits_natRepr]
    rw [show ((some ((-t).toNat)).bind
        (fun n => if n ≤ bound then some (-(n : Int)) else none)) =
      (if (-t).toNat ≤ bound then some (-(((-t).toNat : Nat) : Int)) else none)
      from rfl]
    rw [if_pos (by omega)]
    congr 1
    omega
  · have hdata : intRepr t = natRepr t.toNat := by
      unfold intRepr
      rw [if_neg hneg]
    rw [hdata]
    have hhead : ¬ ((natRepr t.toNat).head? = some '-') := by
      cases hrep : natRepr t.toNat with
      | nil => simp
      | cons c cs =>
        have hc := natRepr_digits t.toNat c (by
          rw [hrep]
          exact List.mem_cons_self _ _)
        simp only [List.head?_cons]
        intro he
        rw [Option.some.injEq] at he
        rw [he] at hc
        exact absurd hc (by decide)
    rw [if_neg hhead]
    rw [stripPlus_digits _ (natRepr_digits t.toNat), parseDigits_natRepr]
    rw [show ((some t.toNat).bind
        (fun n => if n < bound then some ((n : Nat) : Int) else none)) =
      (if t.toNat < bound then some ((t.toNat : Nat) : Int) else none) from rfl]
    rw [if_pos (by omega)]
    congr 1
    omega

theorem parseI64_intReprS (t : Int) (h : tsRange t) :
    parseI64 (intReprS t) = some t := by
  unfold parseI64
  unfold tsRange at h
  refine parseIntB_intReprS (2 ^ 63) t ?_ ?_ <;> push_cast <;> omega

theorem readLine_entryFields (m : List (Nat × List Entry)) (u : Nat) (e : Entry)
    (hu : u < 2 ^ 64) (hobs : tsRange e.observed)
    (hrev : ∀ r ∈ e.reversal.toList, tsRange r) :
    Log.readLine m (Log.entryFields u e) = Except.ok (Log.pushEntry m u e) := by
  unfold Log.readLine
  rw [show (Log.entryFields u e).get? 0 = some (natReprS u) from rfl,
    show (Log.entryFields u e).get? 1 = some (natReprS e.status.code) from rfl,
    show (Log.entryFields u e).get? 2 = some (intReprS e.observed) from rfl,
    show (Log.entryFields u e).get? 3 =
      some ((e.reversal.map intReprS).getD "") from rfl]
  rw [show (some (natReprS u)).bind parseU64 = parseU64 (natReprS u) from rfl,
    parseU64_natReprS u hu]
  have hstat : (parseI32 (natReprS e.status.code)).bind FormerUserStatus.tryFrom =
      some e.status := by
    cases e.status <;> decide
  rw [show (some (natReprS e.status.code)).bind
      (fun f => (parseI32 f).bind FormerUserStatus.tryFrom) =
      (parseI32 (natReprS e.status.code)).bind FormerUserStatus.tryFrom from rfl,
    hstat]
  rw [show (some (intReprS e.observed)).bind parseI64 =
      parseI64 (intReprS e.observed) from rfl,
    parseI64_intReprS e.observed hobs]
  have hrevp : (some ((e.reversal.map intReprS).getD "")).bind
      (fun v => if v = "" then some none else (parseI64 v).map some) =
        some e.reversal := by
    cases hr : e.reversal with
    | none => rfl
    | some r =>
      show (if intReprS r = "" then some none
        else (parseI64 (intReprS r)).map some) = some (some r)
      rw [if_neg (intReprS_ne_empty r),
        parseI64_intReprS r (by
          refine hrev r ?_
          rw [hr]
          exact List.mem_singleton.mpr rfl)]
      rfl
  rw [hrevp]
  rfl

theorem readGo_user_lines :
    ∀ (es : List Entry) (m : List (Nat × List Entry)) (u : Nat)
      (rest : List (List String)),
      u < 2 ^ 64 → (∀ e ∈ es, entryTsRange e) →
      Log.readGo m (es.map (Log.entryFields u) ++ rest) =
        Log.readGo (Log.pushEntries m u es) rest := by
  intro es
  induction es with
  | nil => intro m u rest _ _; rfl
  | cons e t ih =>
    intro m u rest hu hts
    simp only [List.map_cons, List.cons_append]
    have hts0 := hts e (List.mem_cons_self e t)
    rw [show Log.readGo m ((Log.entryFields u e) :: (t.map (Log.entryFields u) ++ rest)) =
      (Log.readLine m (Log.entryFields u e)).bind
        (fun m' => Log.readGo m' (t.map (Log.entryFields u) ++ rest)) from rfl]
    rw [readLine_entryFields m u e hu hts0.1 hts0.2]
    rw [show (Except.ok (Log.pushEntry m u e) :
        Except LogError (List (Nat × List Entry))).bind
        (fun m' => Log.readGo m' (t.map (Log.entryFields u) ++ rest)) =
      Log.readGo (Log.pushEntry m u e) (t.map (Log.entryFields u) ++ rest) from rfl]
    rw [ih (Log.pushEntry m u e) u rest hu
      (fun e' he' => hts e' (List.mem_cons_of_mem _ he'))]
    rfl

theorem alFind_append_self {β : Type} (u : Nat) (l : β) :
    ∀ m : List (Nat × β), u ∉ alKeys m → alFind u (m ++ [(u, l)]) = some l := by
  intro m
  induction m with
  | nil => intro _; simp [alFind]
  | cons hd t ih =>
    intro h
    obtain ⟨k0, v0⟩ := hd
    simp only [alKeys, List.map_cons, List.mem_cons, not_or] at h
    have : ¬ k0 = u := fun hh => h.1 hh.symm
    simp only [List.cons_append, alFind, this, if_false]
    exact ih (by simpa [alKeys] using h.2)

theorem alStore_append_self {β : Type} (u : Nat) (v l : β) :
    ∀ m : List (Nat × β), u ∉ alKeys m →
      alStore u v (m ++ [(u, l)]) = m ++ [(u, v)] := by
  intro m
  induction m with
  | nil => intro _; simp [alStore]
  | cons hd t ih =>
    intro h
    obtain ⟨k0, v0⟩ := hd
    simp only [alKeys, List.map_cons, List.mem_cons, not_or] at h
    have : ¬ k0 = u := fun hh => h.1 hh.symm
    simp only [List.cons_append, alStore, this, if_false]
    rw [show (t.append [(u, l)]) = t ++ [(u, l)] from rfl]
    rw [ih (by simpa [alKeys] using h.2)]

theorem pushEntries_aux :
    ∀ (es : List Entry) (m : List (Nat × List Entry)) (u : Nat) (l : List Entry),
      u ∉ alKeys m →
      Log.pushEntries (m ++ [(u, l)]) u es = m ++ [(u, l ++ es)] := by
  intro es
  induction es with
  | nil => intro m u l _; simp [Log.pushEntries]
  | cons e t ih =>
    intro m u l h
    show Log.pushEntries (Log.pushEntry (m ++ [(u, l)]) u e) u t = _
    rw [show Log.pushEntry (m ++ [(u, l)]) u e = m ++ [(u, l ++ [e])] from by
      unfold Log.pushEntry
      rw [alFind_append_self u l m h]
      exact alStore_append_self u (l ++ [e]) l m h]
    rw [ih m u (l ++ [e]) h]
    simp

theorem pushEntries_fresh (m : List (Nat × List Entry)) (u : Nat)
    (es : List Entry) (h : u ∉ alKeys m) (hne : es ≠ []) :
    Log.pushEntries m u es = m ++ [(u, es)] := by
  cases es with
  | nil => exact absurd rfl hne
  | cons e t =>
    show Log.pushEntries (Log.pushEntry m u e) u t = _
    rw [show Log.pushEntry m u e = m ++ [(u, [e])] from by
      unfold Log.pushEntry
      rw [alFind_eq_none_iff.mpr h]]
    rw [pushEntries_aux t m u [e] h]
    rfl

theorem readGo_users :
    ∀ (pairs m : List (Nat × List Entry)),
      (alKeys pairs).Nodup →
      (∀ p ∈ pairs, p.2 ≠ [] ∧ p.1 < 2 ^ 64 ∧ ∀ e ∈ p.2, entryTsRange e) →
      (∀ p ∈ pairs, p.1 ∉ alKeys m) →
      Log.readGo m ((pairs.map (fun p => p.2.map (Log.entryFields p.1))).flatten) =
        Except.ok (m ++ pairs) := by
  intro pairs
  induction pairs with
  | nil => intro m _ _ _; simp [Log.readGo]
  | cons p t ih =>
    intro m hnd hprops hfresh
    obtain ⟨u, es⟩ := p
    obtain ⟨hne, hu, hts⟩ := hprops (u, es) (List.mem_cons_self _ _)
    simp only [alKeys, List.map_cons, List.nodup_cons] at hnd
    simp only [List.map_cons, List.flatten_cons]
    rw [readGo_user_lines es m u _ hu hts]
    rw [pushEntries_fresh m u es (hfresh (u, es) (List.mem_cons_self _ _)) hne]
    rw [ih (m ++ [(u, es)])
      (by simpa [alKeys] using hnd.2)
      (fun q hq => hprops q (List.mem_cons_of_mem _ hq))
      (fun q hq => by
        simp only [alKeys, List.map_append, List.mem_append]
        push_neg
        refine ⟨fun hmem => hfresh q (List.mem_cons_of_mem _ hq)
          (by simpa [alKeys] using hmem), ?_⟩
        intro hmem
        simp only [List.map_cons, List.map_nil, List.mem_singleton] at hmem
        exact hnd.1 (hmem ▸ (List.mem_map.mpr ⟨q, hq, rfl⟩)))]
    simp

/-- C8 amended: for every log with unique user keys whose per-user entry
lists are non-empty (an empty list writes no lines and is lost on re-read)
and ordered ascending by observed, with ids in u64 range and timestamps in
i64 range (implicit in the Rust types), read after write yields a log equal
to the original as a HashMap. -/
theorem c8_amended :
    ∀ l : Log,
      (alKeys l.entries).Nodup →
      (∀ p ∈ l.entries, p.2 ≠ [] ∧ p.1 < 2 ^ 64 ∧
        p.2.Pairwise obsLE ∧ ∀ e ∈ p.2, entryTsRange e) →
      ∃ l', Log.read (Log.write l) = Except.ok l' ∧ Log.Equiv l' l := by
  intro l hnd hprops
  have hperm : (l.entries.insertionSort (fun a b => a.1 ≤ b.1)).Perm l.entries :=
    List.perm_insertionSort _ _
  have hndS : (alKeys (l.entries.insertionSort (fun a b => a.1 ≤ b.1))).Nodup :=
    ((hperm.map Prod.fst).nodup_iff).mpr hnd
  have h := readGo_users (l.entries.insertionSort (fun a b => a.1 ≤ b.1)) []
    hndS
    (fun p hp => by
      obtain ⟨h1, h2, _, h4⟩ := hprops p (hperm.mem_iff.mp hp)
      exact ⟨h1, h2, h4⟩)
    (fun p _ => by simp [alKeys])
  refine ⟨Log.mk (l.entries.insertionSort (fun a b => a.1 ≤ b.1)), ?_, ?_⟩
  · unfold Log.read Log.write
    rw [h]
    rfl
  · intro u
    exact alFind_perm hperm hndS u

/-- C8 counterexample: a log holding a user with an empty entry list has
observed-ascending (vacuously) per-user lists, yet write emits no line for
it and read returns a log without the user, so read(write(L)) differs
from L. -/
theorem c8_roundtrip_cex :
    Log.read (Log.write (Log.mk [(3, ([] : List Entry))])) =
      Except.ok (Log.mk []) ∧
    ¬ Log.Equiv (Log.mk []) (Log.mk [(3, ([] : List Entry))]) := by
  constructor
  · rfl
  · intro h
    exact absurd (h 3) (by decide)

theorem c8_amended_witness :
    ∃ l', Log.read (Log.write (Log.mk
        [(100, [⟨FormerUserStatus.suspended, 1000, none⟩,
                ⟨FormerUserStatus.suspended, 1500, some 2000⟩]),
         (200, [⟨FormerUserStatus.notFound, 1200, none⟩])])) = Except.ok l' ∧
      Log.Equiv l' (Log.mk
        [(100, [⟨FormerUserStatus.suspended, 1000, none⟩,
                ⟨FormerUserStatus.suspended, 1500, some 2000⟩]),
         (200, [⟨FormerUserStatus.notFound, 1200, none⟩])]) :=
  c8_amended _ (by decide) (by decide)
